import Mathlib

/-!
Verification of the commit-graph ingestion and path-coverage reachability
indexer of `gitserver` (`SQLRepo.Clone`, `aggregateReachability`,
`pathCoverage.TakeIndex`).

The Go code is shallowly embedded:
* `map[int]int` becomes an association list `GoMap` whose read (`goGet`)
  defaults to `0`, matching Go's zero-value read of a missing key;
* commit hashes (`plumbing.Hash` / their hex strings) become `Nat`;
* the mutable `pathCoverage` allocator becomes explicit state passing;
* the external Version Store (only its contract appears in the repository)
  is modelled from the spec;
* the `for toBeProcessed.notEmpty()` loop becomes a fuel-bounded recursion;
  the fuel chosen by `Clone` is generous enough for every well-formed
  history, and all invariant theorems hold for every fuel value.
-/

namespace Gitserver

/-- Go `map[int]int`: an association list; reads default to `0`. -/
abbrev GoMap := List (Int × Int)

/-- Read a key from a `GoMap`; a missing key reads as `0` (Go zero value). -/
def goGet (m : GoMap) (k : Int) : Int :=
  match m with
  | [] => 0
  | e :: rest => if e.1 = k then e.2 else goGet rest k

/-- Write a key into a `GoMap`: replace the binding if present, else append. -/
def goSet (m : GoMap) (k v : Int) : GoMap :=
  match m with
  | [] => [(k, v)]
  | e :: rest => if e.1 = k then (k, v) :: rest else e :: goSet rest k v

/-- A commit as consumed from the git log: hash and parent hashes
(`object.Commit.Hash`, `object.Commit.ParentHashes`), hashes as `Nat`. -/
structure Commit where
  Hash : Nat
  ParentHashes : List Nat
deriving DecidableEq, Repr

/-- `types.RepoVersionPathCoverage`: the (color, index) coordinate. -/
structure RepoVersionPathCoverage where
  PathColor : Int
  PathIndex : Int
deriving DecidableEq, Repr

/-- `types.RepoVersion` as built by `SQLRepo.Clone` (the hex `ExternalID`
is represented by the hash itself, hex encoding being injective). -/
structure RepoVersion where
  RepoID : Nat
  ExternalID : Nat
  PathCoverage : RepoVersionPathCoverage
  Reachability : GoMap
deriving DecidableEq, Repr

/-- `aggregateReachability`: take the max index for every reachable path
color, over all parents (`j := r[c]; if i > j { r[c] = i }`). -/
def aggregateReachability (parents : List RepoVersion) : GoMap :=
  parents.foldl (fun r p =>
    p.Reachability.foldl (fun r ci =>
      if ci.2 > goGet r ci.1 then goSet r ci.1 ci.2 else r) r) []

/-- The allocator state `pathCoverage` carried across the ingestion run. -/
structure pathCoverage where
  topIndices : GoMap
  highestUsedColor : Int
deriving DecidableEq, Repr

/-- `const maxUint = ^uint(0); const maxInt = int(maxUint >> 1)` on a
64-bit platform. -/
def maxInt : Int := 2 ^ 63 - 1

/-- `pathCoverage.TakeIndex`: pick the lowest color whose frontier matches
the aggregated reachability, else allocate a fresh color; returns the
updated allocator state together with the chosen coordinate. -/
def pathCoverage.TakeIndex (p : pathCoverage) (reachability : GoMap) :
    pathCoverage × RepoVersionPathCoverage :=
  let lowest0 := reachability.foldl (fun l ci =>
    if goGet p.topIndices ci.1 = ci.2 then
      (if ci.1 < l then ci.1 else l) else l) maxInt
  let lowestUsableColor := if lowest0 = maxInt then p.highestUsedColor + 1 else lowest0
  let index := goGet p.topIndices lowestUsableColor + 1
  (⟨goSet p.topIndices lowestUsableColor index,
    if p.highestUsedColor < lowestUsableColor then lowestUsableColor
    else p.highestUsedColor⟩,
   ⟨lowestUsableColor, index⟩)

/-- The Version Store contents: the list of persisted `RepoVersion`s. -/
abbrev Store := List RepoVersion

/-- Modelled from the spec: the Version Store is external to the repository;
`lookup(repositoryID, externalID) -> RepoVersion | not-found`. -/
def Lookup (store : Store) (repoID : Nat) (h : Nat) : Option RepoVersion :=
  store.find? (fun v => v.RepoID = repoID && v.ExternalID = h)

/-- Modelled from the spec: the Version Store is external to the repository;
`createIfNotExists(RepoVersion)` is safe to call twice with the same
`(repositoryID, externalID)` without creating a duplicate or erroring. -/
def CreateIfNotExists (store : Store) (v : RepoVersion) : Store :=
  match Lookup store v.RepoID v.ExternalID with
  | some _ => store
  | none => store ++ [v]

/-- Child adjacency map (`children map[plumbing.Hash][]plumbing.Hash`). -/
abbrev ChildMap := List (Nat × List Nat)

/-- Read a child list; a missing key reads as the empty slice. -/
def childGet (m : ChildMap) (h : Nat) : List Nat :=
  match m with
  | [] => []
  | e :: rest => if e.1 = h then e.2 else childGet rest h

/-- Write a child list, replacing the binding if present, else appending. -/
def childSet (m : ChildMap) (h : Nat) (l : List Nat) : ChildMap :=
  match m with
  | [] => [(h, l)]
  | e :: rest => if e.1 = h then (h, l) :: rest else e :: childSet rest h l

/-- Step 2 of `Clone`: one pass over the log, recording for every parent
hash the children that point at it, in log order. -/
def buildChildren (log : List Commit) : ChildMap :=
  log.foldl (fun m c =>
    c.ParentHashes.foldl (fun m h => childSet m h (childGet m h ++ [c.Hash])) m) []

/-- Step 2 of `Clone`: the commits with no parents, in log order. -/
def rootsOf (log : List Commit) : List Nat :=
  (log.filter (fun c => c.ParentHashes.isEmpty)).map (fun c => c.Hash)

/-- `gitRepo.CommitObject`: find the commit with the given hash. -/
def CommitObject (log : List Commit) (h : Nat) : Option Commit :=
  log.find? (fun c => c.Hash = h)

/-- The error outcomes of `Clone` (the clone/branch/log I/O errors of
step 1 are outside the embedded fragment). -/
inductive CloneError where
  | emptyGraph
  | integrity (h : Nat)
  | commitNotFound (h : Nat)
  | outOfFuel
deriving DecidableEq, Repr

/-- The observable outcome of a `Clone` run: the returned error (if any),
the final Version Store contents, and the trace of `RepoVersion`s passed
to `CreateIfNotExists`, each with the parent versions it was computed
from. -/
structure CloneResult where
  res : Option CloneError
  store : Store
  trace : List (RepoVersion × List RepoVersion)
deriving DecidableEq, Repr

/-- Look parents up in the Version Store, failing on the first missing
hash (`expected to find %q in database`). -/
def lookupParents (store : Store) (repoID : Nat) :
    List Nat → Except Nat (List RepoVersion)
  | [] => .ok []
  | h :: rest =>
    match Lookup store repoID h with
    | none => .error h
    | some p =>
      match lookupParents store repoID rest with
      | .error h2 => .error h2
      | .ok ps => .ok (p :: ps)

/-- The check-children loop at the bottom of the `Clone` loop body: push
every not-yet-processed child whose parents are all processed. The bag is
a stack with its top at the head of the list. -/
def pushReady (log : List Commit) (processed : List Nat) :
    List Nat → List Commit → Except Nat (List Commit)
  | [], bag => .ok bag
  | ch :: rest, bag =>
    if processed.contains ch then pushReady log processed rest bag
    else
      match CommitObject log ch with
      | none => .error ch
      | some chCommit =>
        if chCommit.ParentHashes.all (fun ph => processed.contains ph) then
          pushReady log processed rest (chCommit :: bag)
        else pushReady log processed rest bag

/-- The `for toBeProcessed.notEmpty()` loop of `Clone`, as a fuel-bounded
recursion over the explicit loop state. -/
def cloneLoop (log : List Commit) (repoID : Nat) (children : ChildMap) :
    Nat → List Commit → List Nat → pathCoverage → Store → CloneResult
  | fuel, bag, processed, paths, store =>
    match bag with
    | [] => ⟨none, store, []⟩
    | c :: bagRest =>
      match fuel with
      | 0 => ⟨some .outOfFuel, store, []⟩
      | fuel + 1 =>
        match lookupParents store repoID c.ParentHashes with
        | .error h => ⟨some (.integrity h), store, []⟩
        | .ok parents =>
          let reach0 := aggregateReachability parents
          let pc := paths.TakeIndex reach0
          let reachability := goSet reach0 pc.2.PathColor pc.2.PathIndex
          let v : RepoVersion := ⟨repoID, c.Hash, pc.2, reachability⟩
          let store2 := CreateIfNotExists store v
          let processed2 := c.Hash :: processed
          match pushReady log processed2 (childGet children c.Hash) bagRest with
          | .error h => ⟨some (.commitNotFound h), store2, [(v, parents)]⟩
          | .ok bag2 =>
            let r := cloneLoop log repoID children fuel bag2 processed2 pc.1 store2
            ⟨r.res, r.store, (v, parents) :: r.trace⟩

/-- Seed the bag with the root commits, in order (the stack top ends up
being the last root added). -/
def seedBag (log : List Commit) : List Nat → List Commit → Except Nat (List Commit)
  | [], bag => .ok bag
  | r :: rest, bag =>
    match CommitObject log r with
    | none => .error r
    | some c => seedBag log rest (c :: bag)

/-- The fuel `Clone` hands to its loop; for any well-formed history every
commit is pushed at most once, so this bound is never reached. -/
def cloneFuel (log : List Commit) : Nat := (log.length + 1) * (log.length + 1)

/-- The allocator state `Clone` starts from:
`paths := pathCoverage{topIndices: map[int]int{}}`. -/
def cloneInitialPaths : pathCoverage := ⟨[], 0⟩

/-- `SQLRepo.Clone` from the commit log down (the in-memory git clone and
branch resolution of step 1 are I/O outside the embedded fragment). -/
def Clone (log : List Commit) (repoID : Nat) (store : Store) : CloneResult :=
  let children := buildChildren log
  let roots := rootsOf log
  if roots.isEmpty then ⟨some .emptyGraph, store, []⟩
  else
    match seedBag log roots [] with
    | .error h => ⟨some (.commitNotFound h), store, []⟩
    | .ok bag => cloneLoop log repoID children (cloneFuel log) bag [] cloneInitialPaths store

/-! ### Association-list (`GoMap`) lemmas -/

theorem goGet_goSet_self (m : GoMap) (k v : Int) : goGet (goSet m k v) k = v := by
  induction m with
  | nil => simp [goGet, goSet]
  | cons e rest ih =>
    by_cases h : e.1 = k
    · simp [goSet, h, goGet]
    · simp [goSet, h, goGet, ih]

theorem goGet_goSet_ne (m : GoMap) (k v c : Int) (h : c ≠ k) :
    goGet (goSet m k v) c = goGet m c := by
  have hkc : k ≠ c := Ne.symm h
  induction m with
  | nil => simp only [goSet, goGet, if_neg hkc]
  | cons e rest ih =>
    by_cases he : e.1 = k
    · have h2 : e.1 ≠ c := by rw [he]; exact hkc
      simp only [goSet, if_pos he, goGet, if_neg hkc, if_neg h2]
    · simp only [goSet, if_neg he, goGet, ih]

theorem mem_goSet (m : GoMap) (k v : Int) (e : Int × Int) (he : e ∈ goSet m k v) :
    e = (k, v) ∨ e ∈ m := by
  induction m with
  | nil => simpa [goSet] using he
  | cons e0 rest ih =>
    by_cases h : e0.1 = k
    · simp only [goSet, h, if_pos rfl] at he
      rcases List.mem_cons.mp he with h1 | h1
      · exact Or.inl h1
      · exact Or.inr (List.mem_cons_of_mem _ h1)
    · simp only [goSet, h, if_neg h] at he
      rcases List.mem_cons.mp he with h1 | h1
      · exact Or.inr (h1 ▸ List.mem_cons_self _ _)
      · rcases ih h1 with h2 | h2
        · exact Or.inl h2
        · exact Or.inr (List.mem_cons_of_mem _ h2)

theorem keys_mem_goSet (m : GoMap) (k v : Int) (x : Int)
    (hx : x ∈ (goSet m k v).map Prod.fst) : x = k ∨ x ∈ m.map Prod.fst := by
  rcases List.mem_map.mp hx with ⟨e, he, rfl⟩
  rcases mem_goSet m k v e he with h | h
  · exact Or.inl (by rw [h])
  · exact Or.inr (List.mem_map_of_mem _ h)

theorem nodup_keys_goSet (m : GoMap) (k v : Int)
    (h : (m.map Prod.fst).Nodup) : ((goSet m k v).map Prod.fst).Nodup := by
  induction m with
  | nil => simp [goSet]
  | cons e rest ih =>
    simp only [List.map_cons, List.nodup_cons] at h
    by_cases he : e.1 = k
    · simp only [goSet, if_pos he, List.map_cons, List.nodup_cons]
      exact ⟨he ▸ h.1, h.2⟩
    · simp only [goSet, if_neg he, List.map_cons, List.nodup_cons]
      refine ⟨fun hc => ?_, ih h.2⟩
      rcases keys_mem_goSet rest k v e.1 hc with h1 | h1
      · exact he h1
      · exact h.1 h1

theorem goGet_eq_zero_of_not_mem (m : GoMap) (k : Int)
    (h : k ∉ m.map Prod.fst) : goGet m k = 0 := by
  induction m with
  | nil => simp [goGet]
  | cons e rest ih =>
    simp only [List.map_cons, List.mem_cons, not_or] at h
    have h2 : e.1 ≠ k := fun hc => h.1 hc.symm
    simp only [goGet, if_neg h2]
    exact ih h.2

theorem mem_keys_of_goGet_ne (m : GoMap) (k : Int) (h : goGet m k ≠ 0) :
    k ∈ m.map Prod.fst := by
  by_contra hc
  exact h (goGet_eq_zero_of_not_mem m k hc)

theorem goGet_mem (m : GoMap) (k : Int) (h : k ∈ m.map Prod.fst) :
    (k, goGet m k) ∈ m := by
  induction m with
  | nil => simp at h
  | cons e rest ih =>
    by_cases he : e.1 = k
    · simp only [goGet, if_pos he]
      have h2 : (k, e.2) = e := by rw [← he]
      rw [h2]
      exact List.mem_cons_self _ _
    · simp only [List.map_cons, List.mem_cons] at h
      rcases h with h | h
      · exact absurd h.symm he
      · simp only [goGet, if_neg he]
        exact List.mem_cons_of_mem _ (ih h)

theorem goGet_eq_of_mem_nodup (m : GoMap) (k x : Int)
    (hnd : (m.map Prod.fst).Nodup) (h : (k, x) ∈ m) : goGet m k = x := by
  induction m with
  | nil => simp at h
  | cons e rest ih =>
    simp only [List.map_cons, List.nodup_cons] at hnd
    rcases List.mem_cons.mp h with h1 | h1
    · subst h1
      simp [goGet]
    · have hk : e.1 ≠ k := by
        intro hc
        exact hnd.1 (hc ▸ List.mem_map_of_mem Prod.fst h1)
      simp only [goGet, hk, if_neg hk]
      exact ih hnd.2 h1

/-! ### `aggregateReachability` lemmas -/

/-- One insertion step of `aggregateReachability`. -/
def aggInsert (r : GoMap) (ci : Int × Int) : GoMap :=
  if ci.2 > goGet r ci.1 then goSet r ci.1 ci.2 else r

/-- The inner fold of `aggregateReachability` over one parent's entries. -/
def aggFold (r : GoMap) (entries : GoMap) : GoMap := entries.foldl aggInsert r

theorem aggregateReachability_eq (parents : List RepoVersion) :
    aggregateReachability parents
      = parents.foldl (fun r p => aggFold r p.Reachability) [] := rfl

/-- The pure max-accumulator corresponding to one entry, at color `c`. -/
def maxAt (c : Int) (a : Int) (e : Int × Int) : Int :=
  if e.1 = c then max a e.2 else a

theorem goGet_aggInsert (r : GoMap) (e : Int × Int) (c : Int) :
    goGet (aggInsert r e) c = maxAt c (goGet r c) e := by
  unfold aggInsert maxAt
  by_cases hk : e.1 = c
  · subst hk
    by_cases hgt : e.2 > goGet r e.1
    · simp only [if_pos hgt, if_pos rfl, goGet_goSet_self]
      exact (max_eq_right (le_of_lt hgt)).symm
    · simp only [if_neg hgt, if_pos rfl]
      exact (max_eq_left (not_lt.mp hgt)).symm
  · by_cases hgt : e.2 > goGet r e.1
    · simp only [if_pos hgt, if_neg hk]
      exact goGet_goSet_ne r e.1 e.2 c (fun hc => hk hc.symm)
    · simp only [if_neg hgt, if_neg hk]

theorem goGet_aggFold (entries : GoMap) (r : GoMap) (c : Int) :
    goGet (aggFold r entries) c = entries.foldl (maxAt c) (goGet r c) := by
  induction entries generalizing r with
  | nil => rfl
  | cons e rest ih =>
    show goGet (aggFold (aggInsert r e) rest) c
      = rest.foldl (maxAt c) (maxAt c (goGet r c) e)
    rw [ih (aggInsert r e), goGet_aggInsert]

/-- The pure value of `aggregateReachability` at a color: fold of maxes
over all parents' entries. -/
def aggVal (parents : List RepoVersion) (c : Int) : Int :=
  parents.foldl (fun a p => p.Reachability.foldl (maxAt c) a) 0

theorem goGet_aggregateReachability (parents : List RepoVersion) (c : Int) :
    goGet (aggregateReachability parents) c = aggVal parents c := by
  rw [aggregateReachability_eq]
  unfold aggVal
  have key : ∀ (ps : List RepoVersion) (r : GoMap),
      goGet (ps.foldl (fun r p => aggFold r p.Reachability) r) c
        = ps.foldl (fun a p => p.Reachability.foldl (maxAt c) a) (goGet r c) := by
    intro ps
    induction ps with
    | nil => intro r; rfl
    | cons p rest ih =>
      intro r
      show goGet (rest.foldl _ (aggFold r p.Reachability)) c = _
      rw [ih (aggFold r p.Reachability), goGet_aggFold]
      rfl
  exact key parents []

theorem le_foldl_maxAt (l : GoMap) (c a : Int) : a ≤ l.foldl (maxAt c) a := by
  induction l generalizing a with
  | nil => exact le_refl a
  | cons e rest ih =>
    refine le_trans ?_ (ih (maxAt c a e))
    unfold maxAt
    by_cases hk : e.1 = c
    · simp only [if_pos hk]; exact le_max_left a e.2
    · simp only [if_neg hk]; exact le_refl a

theorem mem_le_foldl_maxAt (l : GoMap) (c a i : Int) (h : (c, i) ∈ l) :
    i ≤ l.foldl (maxAt c) a := by
  induction l generalizing a with
  | nil => simp at h
  | cons e rest ih =>
    rcases List.mem_cons.mp h with h1 | h1
    · refine le_trans ?_ (le_foldl_maxAt rest c (maxAt c a e))
      rw [← h1]
      unfold maxAt
      simp only [if_pos rfl]
      exact le_max_right a i
    · exact ih (maxAt c a e) h1

theorem foldl_maxAt_le (l : GoMap) (c a B : Int)
    (hl : ∀ e ∈ l, e.1 = c → e.2 ≤ B) (ha : a ≤ B) : l.foldl (maxAt c) a ≤ B := by
  induction l generalizing a with
  | nil => exact ha
  | cons e rest ih =>
    refine ih (maxAt c a e) (fun e' he' => hl e' (List.mem_cons_of_mem _ he')) ?_
    unfold maxAt
    by_cases hk : e.1 = c
    · simp only [if_pos hk]
      exact max_le ha (hl e (List.mem_cons_self _ _) hk)
    · simp only [if_neg hk]; exact ha

theorem mem_aggFold (entries r : GoMap) (e : Int × Int) (he : e ∈ aggFold r entries) :
    e ∈ r ∨ e ∈ entries := by
  induction entries generalizing r with
  | nil => exact Or.inl he
  | cons e0 rest ih =>
    rcases ih (aggInsert r e0) he with h1 | h1
    · unfold aggInsert at h1
      by_cases hgt : e0.2 > goGet r e0.1
      · rw [if_pos hgt] at h1
        rcases mem_goSet r e0.1 e0.2 e h1 with h2 | h2
        · exact Or.inr (List.mem_cons_self e0 rest |> fun hm => by
            rw [show e = e0 from by rw [h2]]
            exact List.mem_cons_self _ _)
        · exact Or.inl h2
      · rw [if_neg hgt] at h1
        exact Or.inl h1
    · exact Or.inr (List.mem_cons_of_mem _ h1)

theorem mem_aggregateReachability (parents : List RepoVersion) (e : Int × Int)
    (he : e ∈ aggregateReachability parents) :
    ∃ p ∈ parents, e ∈ p.Reachability := by
  rw [aggregateReachability_eq] at he
  have key : ∀ (ps : List RepoVersion) (r : GoMap),
      e ∈ ps.foldl (fun r p => aggFold r p.Reachability) r →
      e ∈ r ∨ ∃ p ∈ ps, e ∈ p.Reachability := by
    intro ps
    induction ps with
    | nil => intro r h; exact Or.inl h
    | cons p rest ih =>
      intro r h
      rcases ih (aggFold r p.Reachability) h with h1 | h1
      · rcases mem_aggFold p.Reachability r e h1 with h2 | h2
        · exact Or.inl h2
        · exact Or.inr ⟨p, List.mem_cons_self _ _, h2⟩
      · rcases h1 with ⟨q, hq, hq2⟩
        exact Or.inr ⟨q, List.mem_cons_of_mem _ hq, hq2⟩
  rcases key parents [] he with h1 | h1
  · simp at h1
  · exact h1

theorem goGet_nonneg_of_pos (r : GoMap) (k : Int)
    (hr : ∀ e ∈ r, 1 ≤ e.2) : 0 ≤ goGet r k := by
  by_cases hmem : k ∈ r.map Prod.fst
  · exact le_trans (by norm_num) (hr _ (goGet_mem r k hmem))
  · rw [goGet_eq_zero_of_not_mem r k hmem]

theorem aggFold_pos (entries r : GoMap) (hr : ∀ e ∈ r, 1 ≤ e.2) :
    ∀ e ∈ aggFold r entries, 1 ≤ e.2 := by
  induction entries generalizing r with
  | nil => exact hr
  | cons e0 rest ih =>
    refine ih (aggInsert r e0) ?_
    intro e he
    unfold aggInsert at he
    by_cases hgt : e0.2 > goGet r e0.1
    · rw [if_pos hgt] at he
      rcases mem_goSet r e0.1 e0.2 e he with h2 | h2
      · rw [h2]
        exact lt_of_le_of_lt (goGet_nonneg_of_pos r e0.1 hr) hgt
      · exact hr e h2
    · rw [if_neg hgt] at he
      exact hr e he

theorem aggregateReachability_pos (parents : List RepoVersion) :
    ∀ e ∈ aggregateReachability parents, 1 ≤ e.2 := by
  rw [aggregateReachability_eq]
  have key : ∀ (ps : List RepoVersion) (r : GoMap), (∀ e ∈ r, 1 ≤ e.2) →
      ∀ e ∈ ps.foldl (fun r p => aggFold r p.Reachability) r, 1 ≤ e.2 := by
    intro ps
    induction ps with
    | nil => intro r hr; exact hr
    | cons p rest ih =>
      intro r hr
      exact ih (aggFold r p.Reachability) (aggFold_pos p.Reachability r hr)
  exact key parents [] (by simp)

theorem aggFold_nodup_keys (entries r : GoMap)
    (hr : (r.map Prod.fst).Nodup) : ((aggFold r entries).map Prod.fst).Nodup := by
  induction entries generalizing r with
  | nil => exact hr
  | cons e0 rest ih =>
    refine ih (aggInsert r e0) ?_
    unfold aggInsert
    by_cases hgt : e0.2 > goGet r e0.1
    · rw [if_pos hgt]; exact nodup_keys_goSet r e0.1 e0.2 hr
    · rw [if_neg hgt]; exact hr

theorem aggregateReachability_nodup_keys (parents : List RepoVersion) :
    ((aggregateReachability parents).map Prod.fst).Nodup := by
  rw [aggregateReachability_eq]
  have key : ∀ (ps : List RepoVersion) (r : GoMap), (r.map Prod.fst).Nodup →
      ((ps.foldl (fun r p => aggFold r p.Reachability) r).map Prod.fst).Nodup := by
    intro ps
    induction ps with
    | nil => intro r hr; exact hr
    | cons p rest ih =>
      intro r hr
      exact ih (aggFold r p.Reachability) (aggFold_nodup_keys p.Reachability r hr)
  exact key parents [] (by simp)

theorem le_outerFold (ps : List RepoVersion) (c a : Int) :
    a ≤ ps.foldl (fun a q => q.Reachability.foldl (maxAt c) a) a := by
  induction ps generalizing a with
  | nil => exact le_refl a
  | cons q rest ih =>
    exact le_trans (le_foldl_maxAt q.Reachability c a)
      (ih (q.Reachability.foldl (maxAt c) a))

theorem parent_le_aggregateReachability (parents : List RepoVersion)
    (p : RepoVersion) (hp : p ∈ parents) (c i : Int) (hci : (c, i) ∈ p.Reachability) :
    i ≤ goGet (aggregateReachability parents) c := by
  rw [goGet_aggregateReachability]
  unfold aggVal
  have key : ∀ (ps : List RepoVersion) (a : Int), p ∈ ps →
      i ≤ ps.foldl (fun a q => q.Reachability.foldl (maxAt c) a) a := by
    intro ps
    induction ps with
    | nil => intro a h; simp at h
    | cons q rest ih =>
      intro a h
      rcases List.mem_cons.mp h with h1 | h1
      · subst h1
        exact le_trans (mem_le_foldl_maxAt _ c a i hci)
          (le_outerFold rest c (p.Reachability.foldl (maxAt c) a))
      · exact ih (q.Reachability.foldl (maxAt c) a) h1
  exact key parents 0 hp

theorem aggregateReachability_le_bound (parents : List RepoVersion) (c : Int)
    (B : Int → Int) (hB : ∀ x, 0 ≤ B x)
    (hps : ∀ p ∈ parents, ∀ e ∈ p.Reachability, e.2 ≤ B e.1) :
    goGet (aggregateReachability parents) c ≤ B c := by
  rw [goGet_aggregateReachability]
  unfold aggVal
  have key : ∀ (ps : List RepoVersion) (a : Int),
      (∀ p ∈ ps, ∀ e ∈ p.Reachability, e.2 ≤ B e.1) → a ≤ B c →
      ps.foldl (fun a q => q.Reachability.foldl (maxAt c) a) a ≤ B c := by
    intro ps
    induction ps with
    | nil => intro a _ ha; exact ha
    | cons q rest ih =>
      intro a hqs ha
      refine ih _ (fun p hp => hqs p (List.mem_cons_of_mem _ hp)) ?_
      refine foldl_maxAt_le q.Reachability c a (B c) ?_ ha
      intro e he hk
      exact hk ▸ hqs q (List.mem_cons_self _ _) e he
  exact key parents 0 hps (hB c)
theorem maxAt_comm (c a : Int) (e e' : Int × Int) :
    maxAt c (maxAt c a e) e' = maxAt c (maxAt c a e') e := by
  unfold maxAt
  by_cases h1 : e.1 = c <;> by_cases h2 : e'.1 = c <;> simp [h1, h2]
  rw [max_assoc, max_comm e.2 e'.2, ← max_assoc]

theorem foldl_maxAt_step_comm (l : GoMap) (c a : Int) (e : Int × Int) :
    l.foldl (maxAt c) (maxAt c a e) = maxAt c (l.foldl (maxAt c) a) e := by
  induction l generalizing a with
  | nil => rfl
  | cons e' rest ih =>
    show rest.foldl (maxAt c) (maxAt c (maxAt c a e) e') = _
    rw [maxAt_comm c a e e', ih (maxAt c a e')]
    rfl

theorem foldl_maxAt_lists_comm (lp lq : GoMap) (c a : Int) :
    lq.foldl (maxAt c) (lp.foldl (maxAt c) a)
      = lp.foldl (maxAt c) (lq.foldl (maxAt c) a) := by
  induction lp generalizing a with
  | nil => rfl
  | cons e lp2 ih =>
    show lq.foldl (maxAt c) (lp2.foldl (maxAt c) (maxAt c a e)) = _
    rw [ih (maxAt c a e), foldl_maxAt_step_comm lq c a e]
    rfl

theorem outerFold_perm (c : Int) (ps ps2 : List RepoVersion) (hp : ps.Perm ps2) :
    ∀ a : Int, ps.foldl (fun a q => q.Reachability.foldl (maxAt c) a) a
      = ps2.foldl (fun a q => q.Reachability.foldl (maxAt c) a) a := by
  induction hp with
  | nil => intro a; rfl
  | cons x h ih => intro a; exact ih _
  | swap x y l =>
    intro a
    show l.foldl _ (x.Reachability.foldl (maxAt c) (y.Reachability.foldl (maxAt c) a))
      = l.foldl _ (y.Reachability.foldl (maxAt c) (x.Reachability.foldl (maxAt c) a))
    rw [foldl_maxAt_lists_comm]
  | trans h1 h2 ih1 ih2 => intro a; rw [ih1 a, ih2 a]

theorem mem_keys_agg_iff_goGet_pos (parents : List RepoVersion) (c : Int) :
    c ∈ (aggregateReachability parents).map Prod.fst ↔
      goGet (aggregateReachability parents) c ≠ 0 := by
  constructor
  · intro h
    have h1 := aggregateReachability_pos parents _ (goGet_mem _ c h)
    intro hc
    rw [hc] at h1
    norm_num at h1
  · exact mem_keys_of_goGet_ne _ c

/-- C10: `aggregateReachability` computes the pointwise maximum of the
parents' reachability maps — its keys are exactly the colors carried by
some parent, its value at each key is attained by a parent and dominates
every parent's value there, the map (extensionally) does not depend on
the order of the parents list, and it has no zero-valued entries. -/
theorem aggregateReachability_pointwise_max (parents : List RepoVersion)
    (hpos : ∀ p ∈ parents, ∀ e ∈ p.Reachability, 1 ≤ e.2) :
    (∀ c : Int, c ∈ (aggregateReachability parents).map Prod.fst ↔
        ∃ p ∈ parents, c ∈ p.Reachability.map Prod.fst)
    ∧ (∀ c : Int, c ∈ (aggregateReachability parents).map Prod.fst →
        (∃ p ∈ parents, (c, goGet (aggregateReachability parents) c) ∈ p.Reachability)
        ∧ ∀ p ∈ parents, ∀ i : Int, (c, i) ∈ p.Reachability →
            i ≤ goGet (aggregateReachability parents) c)
    ∧ (∀ parents2 : List RepoVersion, parents.Perm parents2 → ∀ c : Int,
        goGet (aggregateReachability parents) c
          = goGet (aggregateReachability parents2) c
        ∧ (c ∈ (aggregateReachability parents).map Prod.fst ↔
            c ∈ (aggregateReachability parents2).map Prod.fst))
    ∧ (∀ e ∈ aggregateReachability parents, 1 ≤ e.2) := by
  refine ⟨?_, ?_, ?_, aggregateReachability_pos parents⟩
  · intro c
    constructor
    · intro h
      rcases mem_aggregateReachability parents _ (goGet_mem _ c h) with ⟨p, hp, hpc⟩
      exact ⟨p, hp, List.mem_map_of_mem Prod.fst hpc⟩
    · rintro ⟨p, hp, hc⟩
      rcases List.mem_map.mp hc with ⟨e, he, rfl⟩
      have h1 : (e.1, e.2) ∈ p.Reachability := by rw [Prod.mk.eta]; exact he
      have h2 : e.2 ≤ goGet (aggregateReachability parents) e.1 :=
        parent_le_aggregateReachability parents p hp e.1 e.2 h1
      refine mem_keys_of_goGet_ne _ e.1 (fun hc0 => ?_)
      rw [hc0] at h2
      have := hpos p hp e he
      omega
  · intro c hc
    refine ⟨?_, ?_⟩
    · exact mem_aggregateReachability parents _ (goGet_mem _ c hc)
    · intro p hp i hi
      exact parent_le_aggregateReachability parents p hp c i hi
  · intro parents2 hperm c
    have hget : goGet (aggregateReachability parents) c
        = goGet (aggregateReachability parents2) c := by
      rw [goGet_aggregateReachability, goGet_aggregateReachability]
      exact outerFold_perm c parents parents2 hperm 0
    refine ⟨hget, ?_⟩
    rw [mem_keys_agg_iff_goGet_pos, mem_keys_agg_iff_goGet_pos, hget]

/-! ### `TakeIndex` lemmas -/

/-- The color-selection fold of `TakeIndex`: the lowest key of `l` whose
entry sits at the frontier recorded in `top`, starting from `linit`. -/
def lowestQual (top : GoMap) (l : GoMap) (linit : Int) : Int :=
  l.foldl (fun l ci =>
    if goGet top ci.1 = ci.2 then (if ci.1 < l then ci.1 else l) else l) linit

theorem lowestQual_le_init (top l : GoMap) (linit : Int) :
    lowestQual top l linit ≤ linit := by
  induction l generalizing linit with
  | nil => exact le_refl linit
  | cons e rest ih =>
    show lowestQual top rest _ ≤ linit
    refine le_trans (ih _) ?_
    by_cases h1 : goGet top e.1 = e.2
    · by_cases h2 : e.1 < linit
      · simp only [if_pos h1, if_pos h2]
        exact le_of_lt h2
      · simp only [if_pos h1, if_neg h2]
        exact le_refl linit
    · simp only [if_neg h1]
      exact le_refl linit

theorem lowestQual_le (top l : GoMap) (linit : Int) :
    ∀ e ∈ l, goGet top e.1 = e.2 → lowestQual top l linit ≤ e.1 := by
  induction l generalizing linit with
  | nil => intro e he; simp at he
  | cons e0 rest ih =>
    intro e he hq
    rcases List.mem_cons.mp he with h1 | h1
    · subst h1
      refine le_trans (lowestQual_le_init top rest _) ?_
      simp only [if_pos hq]
      by_cases h2 : e.1 < linit
      · simp only [if_pos h2]
        exact le_refl e.1
      · simp only [if_neg h2]
        exact not_lt.mp h2
    · exact ih _ e h1 hq

theorem lowestQual_cases (top l : GoMap) (linit : Int) :
    lowestQual top l linit = linit
      ∨ ∃ e ∈ l, goGet top e.1 = e.2 ∧ lowestQual top l linit = e.1 := by
  induction l generalizing linit with
  | nil => exact Or.inl rfl
  | cons e0 rest ih =>
    rcases ih (if goGet top e0.1 = e0.2 then
        (if e0.1 < linit then e0.1 else linit) else linit) with h1 | h1
    · by_cases hq : goGet top e0.1 = e0.2
      · by_cases h2 : e0.1 < linit
        · refine Or.inr ⟨e0, List.mem_cons_self _ _, hq, ?_⟩
          rw [show lowestQual top (e0 :: rest) linit = lowestQual top rest _ from rfl, h1,
            if_pos hq, if_pos h2]
        · refine Or.inl ?_
          rw [show lowestQual top (e0 :: rest) linit = lowestQual top rest _ from rfl, h1,
            if_pos hq, if_neg h2]
      · refine Or.inl ?_
        rw [show lowestQual top (e0 :: rest) linit = lowestQual top rest _ from rfl, h1,
          if_neg hq]
    · rcases h1 with ⟨e, he, hq, heq⟩
      exact Or.inr ⟨e, List.mem_cons_of_mem _ he, hq, heq⟩

/-- A color `c` is extendable for the aggregated map `agg` under allocator
state `p`: `c` occurs in `agg` and `agg[c] == topIndices[c]`. -/
def extendable (p : pathCoverage) (agg : GoMap) (c : Int) : Prop :=
  c ∈ agg.map Prod.fst ∧ goGet agg c = goGet p.topIndices c

/-- C1: `TakeIndex` picks the lowest extendable color and the next index on
it, or a brand-new color `highestUsedColor+1` at index 1 when no color is
extendable; afterwards the frontier of the returned color is the returned
index and `highestUsedColor` is the max of its old value and the returned
color. -/
theorem TakeIndex_spec (p : pathCoverage) (agg : GoMap)
    (hnd : (agg.map Prod.fst).Nodup)
    (hlt : ∀ e ∈ agg, e.1 < maxInt)
    (htop : ∀ e ∈ p.topIndices, e.1 ≤ p.highestUsedColor) :
    ((∃ c, extendable p agg c) →
        extendable p agg (p.TakeIndex agg).2.PathColor
        ∧ (∀ c, extendable p agg c → (p.TakeIndex agg).2.PathColor ≤ c)
        ∧ (p.TakeIndex agg).2.PathIndex
            = goGet p.topIndices (p.TakeIndex agg).2.PathColor + 1)
    ∧ ((¬ ∃ c, extendable p agg c) →
        (p.TakeIndex agg).2.PathColor = p.highestUsedColor + 1
        ∧ (p.TakeIndex agg).2.PathIndex = 1)
    ∧ goGet (p.TakeIndex agg).1.topIndices (p.TakeIndex agg).2.PathColor
        = (p.TakeIndex agg).2.PathIndex
    ∧ (p.TakeIndex agg).1.highestUsedColor
        = max p.highestUsedColor (p.TakeIndex agg).2.PathColor := by
  have hqual_ext : ∀ e ∈ agg, goGet p.topIndices e.1 = e.2 → extendable p agg e.1 := by
    intro e he hq
    refine ⟨List.mem_map_of_mem Prod.fst he, ?_⟩
    have h1 : (e.1, e.2) ∈ agg := by rw [Prod.mk.eta]; exact he
    rw [goGet_eq_of_mem_nodup agg e.1 e.2 hnd h1, hq]
  have hext_qual : ∀ c, extendable p agg c →
      (c, goGet agg c) ∈ agg ∧ goGet p.topIndices c = goGet agg c := by
    intro c hc
    exact ⟨goGet_mem agg c hc.1, hc.2.symm⟩
  have hcol : (p.TakeIndex agg).2.PathColor
      = (if lowestQual p.topIndices agg maxInt = maxInt then p.highestUsedColor + 1
         else lowestQual p.topIndices agg maxInt) := rfl
  have hidx : (p.TakeIndex agg).2.PathIndex
      = goGet p.topIndices (p.TakeIndex agg).2.PathColor + 1 := rfl
  refine ⟨?_, ?_, ?_, ?_⟩
  · rintro ⟨c0, hc0⟩
    have hq0 := hext_qual c0 hc0
    have hL_le : lowestQual p.topIndices agg maxInt ≤ c0 :=
      lowestQual_le p.topIndices agg maxInt _ hq0.1 (by simpa using hq0.2)
    have hc0lt : c0 < maxInt := hlt _ hq0.1
    have hLne : lowestQual p.topIndices agg maxInt ≠ maxInt := by omega
    have hcol2 : (p.TakeIndex agg).2.PathColor = lowestQual p.topIndices agg maxInt := by
      rw [hcol, if_neg hLne]
    refine ⟨?_, ?_, hidx⟩
    · rcases lowestQual_cases p.topIndices agg maxInt with h1 | h1
      · exact absurd h1 hLne
      · rcases h1 with ⟨e, he, hq, heq⟩
        rw [hcol2, heq]
        exact hqual_ext e he hq
    · intro c hc
      have hq := hext_qual c hc
      rw [hcol2]
      exact lowestQual_le p.topIndices agg maxInt _ hq.1 (by simpa using hq.2)
  · intro hno
    have hLeq : lowestQual p.topIndices agg maxInt = maxInt := by
      rcases lowestQual_cases p.topIndices agg maxInt with h1 | h1
      · exact h1
      · rcases h1 with ⟨e, he, hq, _⟩
        exact absurd ⟨e.1, hqual_ext e he hq⟩ hno
    have hcol2 : (p.TakeIndex agg).2.PathColor = p.highestUsedColor + 1 := by
      rw [hcol, if_pos hLeq]
    refine ⟨hcol2, ?_⟩
    rw [hidx, hcol2]
    have hnot : p.highestUsedColor + 1 ∉ p.topIndices.map Prod.fst := by
      intro hmem
      rcases List.mem_map.mp hmem with ⟨e, he, heq⟩
      have := htop e he
      omega
    rw [goGet_eq_zero_of_not_mem _ _ hnot]
    norm_num
  · exact goGet_goSet_self p.topIndices _ _
  · show (if p.highestUsedColor < (p.TakeIndex agg).2.PathColor
        then (p.TakeIndex agg).2.PathColor else p.highestUsedColor) = _
    by_cases h : p.highestUsedColor < (p.TakeIndex agg).2.PathColor
    · rw [if_pos h, max_eq_right (le_of_lt h)]
    · rw [if_neg h, max_eq_left (not_lt.mp h)]

/-! ### Unfolding lemmas for the `Clone` loop -/

/-- The `RepoVersion` built for commit `c` in one iteration of the `Clone`
loop (lines: aggregate, `TakeIndex`, overwrite own entry, build record). -/
def stepVersion (repoID : Nat) (c : Commit) (paths : pathCoverage)
    (parents : List RepoVersion) : RepoVersion :=
  ⟨repoID, c.Hash, (paths.TakeIndex (aggregateReachability parents)).2,
   goSet (aggregateReachability parents)
     (paths.TakeIndex (aggregateReachability parents)).2.PathColor
     (paths.TakeIndex (aggregateReachability parents)).2.PathIndex⟩

theorem cloneLoop_nil (log : List Commit) (repoID : Nat) (children : ChildMap)
    (fuel : Nat) (processed : List Nat) (paths : pathCoverage) (store : Store) :
    cloneLoop log repoID children fuel [] processed paths store = ⟨none, store, []⟩ := by
  cases fuel <;> rfl

theorem cloneLoop_zero (log : List Commit) (repoID : Nat) (children : ChildMap)
    (c : Commit) (bagRest : List Commit) (processed : List Nat)
    (paths : pathCoverage) (store : Store) :
    cloneLoop log repoID children 0 (c :: bagRest) processed paths store
      = ⟨some .outOfFuel, store, []⟩ := rfl

theorem cloneLoop_integrity (log : List Commit) (repoID : Nat) (children : ChildMap)
    (fuel : Nat) (c : Commit) (bagRest : List Commit) (processed : List Nat)
    (paths : pathCoverage) (store : Store) (h : Nat)
    (hlp : lookupParents store repoID c.ParentHashes = .error h) :
    cloneLoop log repoID children (fuel + 1) (c :: bagRest) processed paths store
      = ⟨some (.integrity h), store, []⟩ := by
  simp only [cloneLoop, hlp]

theorem cloneLoop_childErr (log : List Commit) (repoID : Nat) (children : ChildMap)
    (fuel : Nat) (c : Commit) (bagRest : List Commit) (processed : List Nat)
    (paths : pathCoverage) (store : Store) (parents : List RepoVersion) (h : Nat)
    (hlp : lookupParents store repoID c.ParentHashes = .ok parents)
    (hpr : pushReady log (c.Hash :: processed) (childGet children c.Hash) bagRest
        = .error h) :
    cloneLoop log repoID children (fuel + 1) (c :: bagRest) processed paths store
      = ⟨some (.commitNotFound h),
         CreateIfNotExists store (stepVersion repoID c paths parents),
         [(stepVersion repoID c paths parents, parents)]⟩ := by
  simp only [cloneLoop, hlp, hpr, stepVersion]

theorem cloneLoop_step (log : List Commit) (repoID : Nat) (children : ChildMap)
    (fuel : Nat) (c : Commit) (bagRest : List Commit) (processed : List Nat)
    (paths : pathCoverage) (store : Store) (parents : List RepoVersion)
    (bag2 : List Commit)
    (hlp : lookupParents store repoID c.ParentHashes = .ok parents)
    (hpr : pushReady log (c.Hash :: processed) (childGet children c.Hash) bagRest
        = .ok bag2) :
    cloneLoop log repoID children (fuel + 1) (c :: bagRest) processed paths store
      = ⟨(cloneLoop log repoID children fuel bag2 (c.Hash :: processed)
            (paths.TakeIndex (aggregateReachability parents)).1
            (CreateIfNotExists store (stepVersion repoID c paths parents))).res,
         (cloneLoop log repoID children fuel bag2 (c.Hash :: processed)
            (paths.TakeIndex (aggregateReachability parents)).1
            (CreateIfNotExists store (stepVersion repoID c paths parents))).store,
         (stepVersion repoID c paths parents, parents) ::
           (cloneLoop log repoID children fuel bag2 (c.Hash :: processed)
              (paths.TakeIndex (aggregateReachability parents)).1
              (CreateIfNotExists store (stepVersion repoID c paths parents))).trace⟩ := by
  simp only [cloneLoop, hlp, hpr, stepVersion]

theorem stepVersion_self_reachability (repoID : Nat) (c : Commit)
    (paths : pathCoverage) (parents : List RepoVersion) :
    goGet (stepVersion repoID c paths parents).Reachability
        (stepVersion repoID c paths parents).PathCoverage.PathColor
      = (stepVersion repoID c paths parents).PathCoverage.PathIndex := by
  unfold stepVersion
  exact goGet_goSet_self _ _ _

theorem cloneLoop_trace_self (log : List Commit) (repoID : Nat) (children : ChildMap)
    (fuel : Nat) (bag : List Commit) (processed : List Nat) (paths : pathCoverage)
    (store : Store) (v : RepoVersion) (ps : List RepoVersion)
    (hmem : (v, ps) ∈ (cloneLoop log repoID children fuel bag processed paths store).trace) :
    goGet v.Reachability v.PathCoverage.PathColor = v.PathCoverage.PathIndex := by
  induction fuel generalizing bag processed paths store with
  | zero =>
    cases bag with
    | nil => rw [cloneLoop_nil] at hmem; simp at hmem
    | cons c bagRest => rw [cloneLoop_zero] at hmem; simp at hmem
  | succ n ih =>
    cases bag with
    | nil => rw [cloneLoop_nil] at hmem; simp at hmem
    | cons c bagRest =>
      rcases hlp : lookupParents store repoID c.ParentHashes with h | parents
      · rw [cloneLoop_integrity log repoID children n c bagRest processed paths store h hlp]
          at hmem
        simp at hmem
      · rcases hpr : pushReady log (c.Hash :: processed) (childGet children c.Hash) bagRest
          with h | bag2
        · rw [cloneLoop_childErr log repoID children n c bagRest processed paths store
            parents h hlp hpr] at hmem
          simp only [List.mem_singleton, Prod.mk.injEq] at hmem
          rw [hmem.1]
          exact stepVersion_self_reachability repoID c paths parents
        · rw [cloneLoop_step log repoID children n c bagRest processed paths store
            parents bag2 hlp hpr] at hmem
          rcases List.mem_cons.mp hmem with h1 | h1
          · rw [(Prod.mk.injEq _ _ _ _).mp h1 |>.1]
            exact stepVersion_self_reachability repoID c paths parents
          · exact ih _ _ _ _ h1

/-- C2: every `RepoVersion` passed to `CreateIfNotExists` during a `Clone`
run satisfies self-reachability: its reachability map at its own path
color equals its own path index. -/
theorem clone_self_reachability (log : List Commit) (repoID : Nat) (store : Store)
    (v : RepoVersion) (ps : List RepoVersion)
    (hmem : (v, ps) ∈ (Clone log repoID store).trace) :
    goGet v.Reachability v.PathCoverage.PathColor = v.PathCoverage.PathIndex := by
  simp only [Clone] at hmem
  by_cases hroots : (rootsOf log).isEmpty = true
  · rw [if_pos hroots] at hmem
    simp at hmem
  · rw [if_neg hroots] at hmem
    rcases hsb : seedBag log (rootsOf log) [] with h | bag
    · rw [hsb] at hmem
      simp at hmem
    · rw [hsb] at hmem
      exact cloneLoop_trace_self log repoID (buildChildren log) (cloneFuel log) bag []
        cloneInitialPaths store v ps hmem

/-! ### Monotonicity across edges (C3) -/

theorem TakeIndex_index_eq (p : pathCoverage) (agg : GoMap) :
    (p.TakeIndex agg).2.PathIndex
      = goGet p.topIndices (p.TakeIndex agg).2.PathColor + 1 := rfl

theorem TakeIndex_topIndices_eq (p : pathCoverage) (agg : GoMap) :
    (p.TakeIndex agg).1.topIndices
      = goSet p.topIndices (p.TakeIndex agg).2.PathColor
          (p.TakeIndex agg).2.PathIndex := rfl

theorem Lookup_mem (store : Store) (repoID h : Nat) (p : RepoVersion)
    (hl : Lookup store repoID h = some p) : p ∈ store :=
  List.mem_of_find?_eq_some hl

theorem lookupParents_mem (store : Store) (repoID : Nat) (hs : List Nat)
    (ps : List RepoVersion) (hlp : lookupParents store repoID hs = .ok ps) :
    ∀ P ∈ ps, P ∈ store := by
  induction hs generalizing ps with
  | nil =>
    simp only [lookupParents] at hlp
    cases hlp
    intro P hP
    simp at hP
  | cons h rest ih =>
    simp only [lookupParents] at hlp
    rcases hl : Lookup store repoID h with _ | p
    · rw [hl] at hlp; cases hlp
    · rw [hl] at hlp
      rcases hrest : lookupParents store repoID rest with h2 | ps2
      · rw [hrest] at hlp; cases hlp
      · rw [hrest] at hlp
        cases hlp
        intro P hP
        rcases List.mem_cons.mp hP with h1 | h1
        · exact h1 ▸ Lookup_mem store repoID h p hl
        · exact ih ps2 hrest P h1

theorem CreateIfNotExists_mem (store : Store) (v w : RepoVersion)
    (hw : w ∈ CreateIfNotExists store v) : w ∈ store ∨ w = v := by
  unfold CreateIfNotExists at hw
  rcases hl : Lookup store v.RepoID v.ExternalID with _ | p
  · rw [hl] at hw
    rcases List.mem_append.mp hw with h1 | h1
    · exact Or.inl h1
    · exact Or.inr (List.mem_singleton.mp h1)
  · rw [hl] at hw
    exact Or.inl hw

/-- Invariant: every persisted reachability value sits at or below the
current frontier of its color. -/
def belowFrontier (store : Store) (top : GoMap) : Prop :=
  ∀ v ∈ store, ∀ e ∈ v.Reachability, e.2 ≤ goGet top e.1

theorem goGet_goSet_mono (m : GoMap) (k x idx : Int) (hk : goGet m k ≤ idx) :
    goGet m x ≤ goGet (goSet m k idx) x := by
  by_cases hx : x = k
  · subst hx
    rw [goGet_goSet_self]
    exact hk
  · rw [goGet_goSet_ne m k idx x hx]

theorem stepVersion_dominates (repoID : Nat) (c : Commit) (paths : pathCoverage)
    (parents : List RepoVersion) (store : Store)
    (hbf : belowFrontier store paths.topIndices)
    (hps : ∀ P ∈ parents, P ∈ store)
    (P : RepoVersion) (hP : P ∈ parents) (c0 i : Int)
    (hci : (c0, i) ∈ P.Reachability) :
    i ≤ goGet (stepVersion repoID c paths parents).Reachability c0 := by
  unfold stepVersion
  set agg := aggregateReachability parents with hagg
  set col := (paths.TakeIndex agg).2.PathColor with hcolDef
  by_cases hc : c0 = col
  · subst hc
    show i ≤ goGet (goSet agg col (paths.TakeIndex agg).2.PathIndex) col
    rw [goGet_goSet_self, TakeIndex_index_eq, ← hcolDef]
    have h1 : i ≤ goGet paths.topIndices col := hbf P (hps P hP) (col, i) hci
    omega
  · show i ≤ goGet (goSet agg col (paths.TakeIndex agg).2.PathIndex) c0
    rw [goGet_goSet_ne agg col _ c0 hc]
    exact parent_le_aggregateReachability parents P hP c0 i hci

theorem step_preserves_invariant (repoID : Nat) (c : Commit) (paths : pathCoverage)
    (parents : List RepoVersion) (store : Store)
    (hbf : belowFrontier store paths.topIndices)
    (htn : ∀ x : Int, 0 ≤ goGet paths.topIndices x)
    (hps : ∀ P ∈ parents, P ∈ store) :
    belowFrontier (CreateIfNotExists store (stepVersion repoID c paths parents))
        (paths.TakeIndex (aggregateReachability parents)).1.topIndices
    ∧ ∀ x : Int, 0 ≤ goGet (paths.TakeIndex (aggregateReachability parents)).1.topIndices x := by
  set agg := aggregateReachability parents with hagg
  set col := (paths.TakeIndex agg).2.PathColor with hcolDef
  have hidx : (paths.TakeIndex agg).2.PathIndex = goGet paths.topIndices col + 1 :=
    TakeIndex_index_eq paths agg
  have htop2 : (paths.TakeIndex agg).1.topIndices
      = goSet paths.topIndices col (paths.TakeIndex agg).2.PathIndex :=
    TakeIndex_topIndices_eq paths agg
  have hmono : ∀ x : Int, goGet paths.topIndices x
      ≤ goGet (paths.TakeIndex agg).1.topIndices x := by
    intro x
    rw [htop2]
    exact goGet_goSet_mono _ col x _ (by omega)
  have haggle : ∀ x : Int, goGet agg x ≤ goGet paths.topIndices x := by
    intro x
    exact aggregateReachability_le_bound parents x (fun y => goGet paths.topIndices y)
      htn (fun p hp e he => hbf p (hps p hp) e he)
  constructor
  · intro w hw e he
    rcases CreateIfNotExists_mem store _ w hw with h1 | h1
    · exact le_trans (hbf w h1 e he) (hmono e.1)
    · subst h1
      unfold stepVersion at he
      rcases mem_goSet agg col _ e he with h2 | h2
      · rw [h2]
        show (paths.TakeIndex agg).2.PathIndex
          ≤ goGet (paths.TakeIndex agg).1.topIndices col
        rw [htop2, goGet_goSet_self]
      · have h3 : e.2 ≤ goGet agg e.1 := by
          have hnd := aggregateReachability_nodup_keys parents
          rw [goGet_eq_of_mem_nodup agg e.1 e.2 hnd (by rw [Prod.mk.eta]; exact h2)]
        exact le_trans h3 (le_trans (haggle e.1) (hmono e.1))
  · intro x
    refine le_trans (htn x) (hmono x)

theorem cloneLoop_trace_monotone (log : List Commit) (repoID : Nat)
    (children : ChildMap) (fuel : Nat) (bag : List Commit) (processed : List Nat)
    (paths : pathCoverage) (store : Store)
    (hbf : belowFrontier store paths.topIndices)
    (htn : ∀ x : Int, 0 ≤ goGet paths.topIndices x)
    (v : RepoVersion) (ps : List RepoVersion)
    (hmem : (v, ps) ∈ (cloneLoop log repoID children fuel bag processed paths store).trace)
    (P : RepoVersion) (hP : P ∈ ps) (c0 i : Int) (hci : (c0, i) ∈ P.Reachability) :
    i ≤ goGet v.Reachability c0 := by
  induction fuel generalizing bag processed paths store with
  | zero =>
    cases bag with
    | nil => rw [cloneLoop_nil] at hmem; simp at hmem
    | cons c bagRest => rw [cloneLoop_zero] at hmem; simp at hmem
  | succ n ih =>
    cases bag with
    | nil => rw [cloneLoop_nil] at hmem; simp at hmem
    | cons c bagRest =>
      rcases hlp : lookupParents store repoID c.ParentHashes with h | parents
      · rw [cloneLoop_integrity log repoID children n c bagRest processed paths store h hlp]
          at hmem
        simp at hmem
      · have hpsm := lookupParents_mem store repoID c.ParentHashes parents hlp
        rcases hpr : pushReady log (c.Hash :: processed) (childGet children c.Hash) bagRest
          with h | bag2
        · rw [cloneLoop_childErr log repoID children n c bagRest processed paths store
            parents h hlp hpr] at hmem
          simp only [List.mem_singleton, Prod.mk.injEq] at hmem
          rw [hmem.1]
          exact stepVersion_dominates repoID c paths parents store hbf hpsm P
            (hmem.2 ▸ hP) c0 i hci
        · rw [cloneLoop_step log repoID children n c bagRest processed paths store
            parents bag2 hlp hpr] at hmem
          rcases List.mem_cons.mp hmem with h1 | h1
          · have h2 := (Prod.mk.injEq _ _ _ _).mp h1
            rw [h2.1]
            exact stepVersion_dominates repoID c paths parents store hbf hpsm P
              (h2.2 ▸ hP) c0 i hci
          · have hinv := step_preserves_invariant repoID c paths parents store hbf htn hpsm
            exact ih _ _ _ _ hinv.1 hinv.2 h1

/-- C3: for every commit finalized during a from-scratch `Clone` run, and
every parent version `P` it was computed from, every reachability entry of
`P` is dominated by the finalized commit's reachability at that color (in
particular, overwriting the commit's own entry never drops below a value
inherited from a parent on that color). -/
theorem clone_monotone_across_edges (log : List Commit) (repoID : Nat)
    (v P : RepoVersion) (ps : List RepoVersion) (c i : Int)
    (hmem : (v, ps) ∈ (Clone log repoID []).trace) (hP : P ∈ ps)
    (hci : (c, i) ∈ P.Reachability) :
    i ≤ goGet v.Reachability c := by
  simp only [Clone] at hmem
  by_cases hroots : (rootsOf log).isEmpty = true
  · rw [if_pos hroots] at hmem
    simp at hmem
  · rw [if_neg hroots] at hmem
    rcases hsb : seedBag log (rootsOf log) [] with h | bag
    · rw [hsb] at hmem
      simp at hmem
    · rw [hsb] at hmem
      refine cloneLoop_trace_monotone log repoID (buildChildren log) (cloneFuel log) bag []
        cloneInitialPaths [] ?_ ?_ v ps hmem P hP c i hci
      · intro w hw
        simp at hw
      · intro x
        exact le_refl 0

/-! ### The diamond scenario -/

/-- The diamond history: root R (hash 1), children A (hash 2) and
B (hash 3) of R, merge M (hash 4) with parents A and B. The log is
newest-first with B before A, so that the LIFO bag pops A first and the
processing order is R, A, B, M. -/
def diamondLog : List Commit := [⟨4, [2, 3]⟩, ⟨3, [1]⟩, ⟨2, [1]⟩, ⟨1, []⟩]

/-- The version the diamond run persists for R. -/
def versionR : RepoVersion := ⟨1, 1, ⟨1, 1⟩, [(1, 1)]⟩

/-- The version the diamond run persists for A. -/
def versionA : RepoVersion := ⟨1, 2, ⟨1, 2⟩, [(1, 2)]⟩

/-- The version the diamond run persists for B. -/
def versionB : RepoVersion := ⟨1, 3, ⟨2, 1⟩, [(1, 1), (2, 1)]⟩

/-- The version the diamond run persists for M. -/
def versionM : RepoVersion := ⟨1, 4, ⟨1, 3⟩, [(1, 3), (2, 1)]⟩

/-- C5 counterexample: the version the diamond run persists for B carries
the entry `(1, 1)` inherited from its parent R in addition to its own
`(2, 1)`, so at color 1 it differs from the claimed reachability `{2:1}`,
under which color 1 would read as 0. -/
theorem diamond_B_keeps_inherited_entry :
    Lookup (Clone diamondLog 1 []).store 1 3 = some versionB
    ∧ goGet versionB.Reachability 1 = 1
    ∧ goGet [(2, 1)] 1 = 0 := by decide

/-- C5 amended: the diamond run processed in order R, A, B, M yields
R = (color 1, index 1, `{1:1}`), A = (color 1, index 2, `{1:2}`),
B = (color 2, index 1, `{1:1, 2:1}` — it also reaches R on color 1), and
M = (color 1, index 3, `{1:3, 2:1}`). -/
theorem diamond_scenario :
    Clone diamondLog 1 []
      = ⟨none, [versionR, versionA, versionB, versionM],
         [(versionR, []), (versionA, [versionR]), (versionB, [versionR]),
          (versionM, [versionA, versionB])]⟩ := by decide

/-- Modelled from the spec: reconstruction of the allocator state from
already-persisted RepoVersions on resume — take the max index per color
across all persisted records, and the max color as `highestUsedColor`.
The repository contains no such reconstruction; this definition exists to
compare the claimed behaviour with the code's. -/
def reconstructPathCoverage (store : Store) : pathCoverage :=
  ⟨store.foldl (fun m v =>
      if goGet m v.PathCoverage.PathColor < v.PathCoverage.PathIndex then
        goSet m v.PathCoverage.PathColor v.PathCoverage.PathIndex else m) [],
   store.foldl (fun h v => max h v.PathCoverage.PathColor) 0⟩

/-- C4 counterexample: on resume after R and A were persisted, the
allocator state `Clone` starts from is `cloneInitialPaths` (empty, zero),
not the state reconstructed from the persisted records (`topIndices[1]=2`,
`highestUsedColor=1`); and the resumed run re-processes all four commits
(passing R and A to `CreateIfNotExists` again) instead of resuming from
the reconstructed state. -/
theorem resume_restarts_from_zero :
    cloneInitialPaths ≠ reconstructPathCoverage [versionR, versionA]
    ∧ reconstructPathCoverage [versionR, versionA] = ⟨[(1, 2)], 1⟩
    ∧ (Clone diamondLog 1 [versionR, versionA]).trace.map (fun e => e.1.ExternalID)
        = [1, 2, 3, 4] := by decide

/-- C4 amended: if ingestion is interrupted after persisting R and A and
`Clone` re-runs, B and M receive exactly the same coordinates and
reachability maps as in an uninterrupted from-scratch run — not because
allocator state is reconstructed from persisted records, but because
`Clone` deterministically re-runs the whole computation from the roots
with the allocator restarted from zero, while idempotent creation leaves
the already-persisted records unchanged. -/
theorem resume_matches_scratch :
    Clone diamondLog 1 [versionR, versionA] = Clone diamondLog 1 []
    ∧ (Clone diamondLog 1 [versionR, versionA]).store
        = [versionR, versionA, versionB, versionM] := by decide

/-! ### Witnesses -/

theorem TakeIndex_spec_witness :
    (([(1, 2), (2, 1)] : GoMap).map Prod.fst).Nodup
    ∧ (∀ e ∈ ([(1, 2), (2, 1)] : GoMap), e.1 < maxInt)
    ∧ (∀ e ∈ (pathCoverage.mk [(1, 2), (2, 1)] 2).topIndices,
        e.1 ≤ (pathCoverage.mk [(1, 2), (2, 1)] 2).highestUsedColor)
    ∧ (((∃ c, extendable ⟨[(1, 2), (2, 1)], 2⟩ [(1, 2), (2, 1)] c) →
        extendable ⟨[(1, 2), (2, 1)], 2⟩ [(1, 2), (2, 1)]
          ((pathCoverage.mk [(1, 2), (2, 1)] 2).TakeIndex [(1, 2), (2, 1)]).2.PathColor
        ∧ (∀ c, extendable ⟨[(1, 2), (2, 1)], 2⟩ [(1, 2), (2, 1)] c →
            ((pathCoverage.mk [(1, 2), (2, 1)] 2).TakeIndex [(1, 2), (2, 1)]).2.PathColor ≤ c)
        ∧ ((pathCoverage.mk [(1, 2), (2, 1)] 2).TakeIndex [(1, 2), (2, 1)]).2.PathIndex
            = goGet (pathCoverage.mk [(1, 2), (2, 1)] 2).topIndices
                ((pathCoverage.mk [(1, 2), (2, 1)] 2).TakeIndex [(1, 2), (2, 1)]).2.PathColor + 1)
    ∧ ((¬ ∃ c, extendable ⟨[(1, 2), (2, 1)], 2⟩ [(1, 2), (2, 1)] c) →
        ((pathCoverage.mk [(1, 2), (2, 1)] 2).TakeIndex [(1, 2), (2, 1)]).2.PathColor
            = (pathCoverage.mk [(1, 2), (2, 1)] 2).highestUsedColor + 1
        ∧ ((pathCoverage.mk [(1, 2), (2, 1)] 2).TakeIndex [(1, 2), (2, 1)]).2.PathIndex = 1)
    ∧ goGet ((pathCoverage.mk [(1, 2), (2, 1)] 2).TakeIndex [(1, 2), (2, 1)]).1.topIndices
          ((pathCoverage.mk [(1, 2), (2, 1)] 2).TakeIndex [(1, 2), (2, 1)]).2.PathColor
        = ((pathCoverage.mk [(1, 2), (2, 1)] 2).TakeIndex [(1, 2), (2, 1)]).2.PathIndex
    ∧ ((pathCoverage.mk [(1, 2), (2, 1)] 2).TakeIndex [(1, 2), (2, 1)]).1.highestUsedColor
        = max (pathCoverage.mk [(1, 2), (2, 1)] 2).highestUsedColor
            ((pathCoverage.mk [(1, 2), (2, 1)] 2).TakeIndex [(1, 2), (2, 1)]).2.PathColor) :=
  ⟨by decide, by decide, by decide,
   TakeIndex_spec ⟨[(1, 2), (2, 1)], 2⟩ [(1, 2), (2, 1)] (by decide) (by decide) (by decide)⟩

theorem aggregateReachability_pointwise_max_witness :
    (∀ p ∈ [versionA, versionB], ∀ e ∈ p.Reachability, (1 : Int) ≤ e.2)
    ∧ ((∀ c : Int, c ∈ (aggregateReachability [versionA, versionB]).map Prod.fst ↔
          ∃ p ∈ [versionA, versionB], c ∈ p.Reachability.map Prod.fst)
      ∧ (∀ c : Int, c ∈ (aggregateReachability [versionA, versionB]).map Prod.fst →
          (∃ p ∈ [versionA, versionB],
            (c, goGet (aggregateReachability [versionA, versionB]) c) ∈ p.Reachability)
          ∧ ∀ p ∈ [versionA, versionB], ∀ i : Int, (c, i) ∈ p.Reachability →
              i ≤ goGet (aggregateReachability [versionA, versionB]) c)
      ∧ (∀ parents2 : List RepoVersion, List.Perm [versionA, versionB] parents2 → ∀ c : Int,
          goGet (aggregateReachability [versionA, versionB]) c
            = goGet (aggregateReachability parents2) c
          ∧ (c ∈ (aggregateReachability [versionA, versionB]).map Prod.fst ↔
              c ∈ (aggregateReachability parents2).map Prod.fst))
      ∧ (∀ e ∈ aggregateReachability [versionA, versionB], (1 : Int) ≤ e.2)) :=
  ⟨by decide, aggregateReachability_pointwise_max [versionA, versionB] (by decide)⟩

theorem clone_self_reachability_witness :
    (versionM, [versionA, versionB]) ∈ (Clone diamondLog 1 []).trace
    ∧ goGet versionM.Reachability versionM.PathCoverage.PathColor
        = versionM.PathCoverage.PathIndex :=
  ⟨by decide, clone_self_reachability diamondLog 1 [] versionM [versionA, versionB] (by decide)⟩

theorem clone_monotone_across_edges_witness :
    ((versionM, [versionA, versionB]) ∈ (Clone diamondLog 1 []).trace
      ∧ versionB ∈ [versionA, versionB] ∧ ((2 : Int), (1 : Int)) ∈ versionB.Reachability)
    ∧ (1 : Int) ≤ goGet versionM.Reachability 2 :=
  ⟨⟨by decide, by decide, by decide⟩,
   clone_monotone_across_edges diamondLog 1 versionM versionB [versionA, versionB] 2 1
     (by decide) (by decide) (by decide)⟩

/-! ### Error behaviour (C7, C8) -/

theorem cloneLoop_res_ne_emptyGraph (log : List Commit) (repoID : Nat)
    (children : ChildMap) (fuel : Nat) (bag : List Commit) (processed : List Nat)
    (paths : pathCoverage) (store : Store) :
    (cloneLoop log repoID children fuel bag processed paths store).res
      ≠ some .emptyGraph := by
  induction fuel generalizing bag processed paths store with
  | zero =>
    cases bag with
    | nil => rw [cloneLoop_nil]; simp
    | cons c bagRest => rw [cloneLoop_zero]; simp
  | succ n ih =>
    cases bag with
    | nil => rw [cloneLoop_nil]; simp
    | cons c bagRest =>
      rcases hlp : lookupParents store repoID c.ParentHashes with h | parents
      · rw [cloneLoop_integrity log repoID children n c bagRest processed paths store h hlp]
        simp
      · rcases hpr : pushReady log (c.Hash :: processed) (childGet children c.Hash) bagRest
          with h | bag2
        · rw [cloneLoop_childErr log repoID children n c bagRest processed paths store
            parents h hlp hpr]
          simp
        · rw [cloneLoop_step log repoID children n c bagRest processed paths store
            parents bag2 hlp hpr]
          exact ih _ _ _ _

/-- C7: `Clone` returns the empty-graph error, persisting nothing, exactly
when the walked log yields no root commit; when at least one root exists
this error is never returned. -/
theorem clone_emptyGraph_iff (log : List Commit) (repoID : Nat) (store : Store) :
    ((rootsOf log).isEmpty = true →
        Clone log repoID store = ⟨some .emptyGraph, store, []⟩)
    ∧ ((rootsOf log).isEmpty = false →
        (Clone log repoID store).res ≠ some .emptyGraph) := by
  constructor
  · intro hroots
    simp only [Clone, if_pos hroots]
  · intro hroots
    have hroots2 : ¬((rootsOf log).isEmpty = true) := by rw [hroots]; simp
    simp only [Clone, if_neg hroots2]
    rcases hsb : seedBag log (rootsOf log) [] with h | bag
    · simp
    · exact cloneLoop_res_ne_emptyGraph log repoID (buildChildren log) (cloneFuel log) bag
        [] cloneInitialPaths store

theorem clone_emptyGraph_iff_witness :
    ((rootsOf [(⟨4, [2, 3]⟩ : Commit)]).isEmpty = true
      ∧ Clone [(⟨4, [2, 3]⟩ : Commit)] 1 [] = ⟨some .emptyGraph, [], []⟩)
    ∧ ((rootsOf diamondLog).isEmpty = false
      ∧ (Clone diamondLog 1 []).res ≠ some .emptyGraph) :=
  ⟨⟨by decide, (clone_emptyGraph_iff [(⟨4, [2, 3]⟩ : Commit)] 1 []).1 (by decide)⟩,
   ⟨by decide, (clone_emptyGraph_iff diamondLog 1 []).2 (by decide)⟩⟩

/-- C8: when the popped commit's parent lookup reports a missing parent,
the loop immediately returns the integrity error for that parent hash,
persisting neither this commit nor any further one (the store is returned
unchanged and the remaining trace is empty), and the error is surfaced in
the result rather than swallowed. -/
theorem clone_integrity_failure (log : List Commit) (repoID : Nat)
    (children : ChildMap) (fuel : Nat) (c : Commit) (bagRest : List Commit)
    (processed : List Nat) (paths : pathCoverage) (store : Store) (h : Nat)
    (hlp : lookupParents store repoID c.ParentHashes = .error h) :
    cloneLoop log repoID children (fuel + 1) (c :: bagRest) processed paths store
      = ⟨some (.integrity h), store, []⟩ := by
  simp only [cloneLoop, hlp]

theorem clone_integrity_failure_witness :
    lookupParents [] 1 (Commit.mk 2 [1]).ParentHashes = .error 1
    ∧ cloneLoop [] 1 [] 1 [⟨2, [1]⟩] [] cloneInitialPaths []
        = ⟨some (.integrity 1), [], []⟩ :=
  ⟨rfl, clone_integrity_failure [] 1 [] 0 ⟨2, [1]⟩ [] [] cloneInitialPaths [] 1 rfl⟩

/-! ### Idempotence (C9) -/

/-- Store extension: every successful lookup in `S` succeeds identically
in `T`. -/
def storeLe (S T : Store) : Prop :=
  ∀ (rid h : Nat) (v : RepoVersion), Lookup S rid h = some v → Lookup T rid h = some v

theorem find?_append_of_find? {α : Type} (p : α → Bool) (l l2 : List α) (w : α)
    (h : l.find? p = some w) : (l ++ l2).find? p = some w := by
  induction l with
  | nil => simp [List.find?] at h
  | cons a rest ih =>
    rcases hpa : p a with _ | _
    · rw [List.find?_cons_of_neg _ (by simp [hpa])] at h
      rw [List.cons_append, List.find?_cons_of_neg _ (by simp [hpa])]
      exact ih h
    · rw [List.find?_cons_of_pos _ hpa] at h
      rw [List.cons_append, List.find?_cons_of_pos _ hpa]
      exact h

theorem Lookup_CreateIfNotExists_of_some (S : Store) (v w : RepoVersion)
    (rid h : Nat) (hl : Lookup S rid h = some w) :
    Lookup (CreateIfNotExists S v) rid h = some w := by
  unfold CreateIfNotExists
  rcases hv : Lookup S v.RepoID v.ExternalID with _ | p
  · exact find?_append_of_find? _ S [v] w hl
  · exact hl

theorem find?_append_singleton {α : Type} (p : α → Bool) (l : List α) (v : α)
    (hnone : l.find? p = none) (hv : p v = true) :
    (l ++ [v]).find? p = some v := by
  induction l with
  | nil => simp [List.find?, hv]
  | cons a rest ih =>
    rcases hpa : p a with _ | _
    · rw [List.find?_cons_of_neg _ (by simp [hpa])] at hnone
      rw [List.cons_append, List.find?_cons_of_neg _ (by simp [hpa])]
      exact ih hnone
    · rw [List.find?_cons_of_pos _ hpa] at hnone
      cases hnone

theorem Lookup_CreateIfNotExists_self (S : Store) (v : RepoVersion) :
    ∃ w, Lookup (CreateIfNotExists S v) v.RepoID v.ExternalID = some w := by
  unfold CreateIfNotExists
  rcases hv : Lookup S v.RepoID v.ExternalID with _ | p
  · refine ⟨v, ?_⟩
    unfold Lookup at hv ⊢
    exact find?_append_singleton _ S v hv (by simp)
  · exact ⟨p, hv⟩

theorem cloneLoop_store_mono (log : List Commit) (repoID : Nat) (children : ChildMap)
    (fuel : Nat) (bag : List Commit) (processed : List Nat) (paths : pathCoverage)
    (store : Store) (rid h : Nat) (w : RepoVersion)
    (hl : Lookup store rid h = some w) :
    Lookup (cloneLoop log repoID children fuel bag processed paths store).store rid h
      = some w := by
  induction fuel generalizing bag processed paths store with
  | zero =>
    cases bag with
    | nil => rw [cloneLoop_nil]; exact hl
    | cons c bagRest => rw [cloneLoop_zero]; exact hl
  | succ n ih =>
    cases bag with
    | nil => rw [cloneLoop_nil]; exact hl
    | cons c bagRest =>
      rcases hlp : lookupParents store repoID c.ParentHashes with h2 | parents
      · rw [cloneLoop_integrity log repoID children n c bagRest processed paths store h2 hlp]
        exact hl
      · rcases hpr : pushReady log (c.Hash :: processed) (childGet children c.Hash) bagRest
          with h2 | bag2
        · rw [cloneLoop_childErr log repoID children n c bagRest processed paths store
            parents h2 hlp hpr]
          exact Lookup_CreateIfNotExists_of_some store _ w rid h hl
        · rw [cloneLoop_step log repoID children n c bagRest processed paths store
            parents bag2 hlp hpr]
          exact ih _ _ _ _ (Lookup_CreateIfNotExists_of_some store _ w rid h hl)

theorem lookupParents_mono (S T : Store) (repoID : Nat) (hs : List Nat)
    (ps : List RepoVersion) (hle : storeLe S T)
    (hlp : lookupParents S repoID hs = .ok ps) :
    lookupParents T repoID hs = .ok ps := by
  induction hs generalizing ps with
  | nil =>
    simp only [lookupParents] at hlp ⊢
    exact hlp
  | cons h rest ih =>
    simp only [lookupParents] at hlp ⊢
    rcases hl : Lookup S repoID h with _ | p
    · rw [hl] at hlp; cases hlp
    · rw [hl] at hlp
      rw [hle repoID h p hl]
      rcases hrest : lookupParents S repoID rest with h2 | ps2
      · rw [hrest] at hlp; cases hlp
      · rw [hrest] at hlp
        rw [ih ps2 hrest]
        exact hlp

theorem CreateIfNotExists_eq_self (T : Store) (v : RepoVersion) (w : RepoVersion)
    (hl : Lookup T v.RepoID v.ExternalID = some w) : CreateIfNotExists T v = T := by
  unfold CreateIfNotExists
  rw [hl]

theorem cloneLoop_sim (log : List Commit) (repoID : Nat) (children : ChildMap)
    (fuel : Nat) (bag : List Commit) (processed : List Nat) (paths : pathCoverage)
    (S T : Store)
    (hres : (cloneLoop log repoID children fuel bag processed paths S).res = none)
    (hle : storeLe S T)
    (hfin : storeLe (cloneLoop log repoID children fuel bag processed paths S).store T) :
    cloneLoop log repoID children fuel bag processed paths T
      = ⟨none, T, (cloneLoop log repoID children fuel bag processed paths S).trace⟩ := by
  induction fuel generalizing bag processed paths S T with
  | zero =>
    cases bag with
    | nil => rw [cloneLoop_nil, cloneLoop_nil]
    | cons c bagRest => rw [cloneLoop_zero] at hres; cases hres
  | succ n ih =>
    cases bag with
    | nil => rw [cloneLoop_nil, cloneLoop_nil]
    | cons c bagRest =>
      rcases hlp : lookupParents S repoID c.ParentHashes with h | parents
      · rw [cloneLoop_integrity log repoID children n c bagRest processed paths S h hlp]
          at hres
        cases hres
      · rcases hpr : pushReady log (c.Hash :: processed) (childGet children c.Hash) bagRest
          with h | bag2
        · rw [cloneLoop_childErr log repoID children n c bagRest processed paths S
            parents h hlp hpr] at hres
          cases hres
        · have hstep := cloneLoop_step log repoID children n c bagRest processed paths S
            parents bag2 hlp hpr
          rw [hstep] at hres hfin
          have hlpT := lookupParents_mono S T repoID c.ParentHashes parents hle hlp
          have hstepT := cloneLoop_step log repoID children n c bagRest processed paths T
            parents bag2 hlpT hpr
          set v := stepVersion repoID c paths parents with hv
          have hS2le : storeLe (CreateIfNotExists S v) T := by
            intro rid h0 w hl
            refine hfin rid h0 w ?_
            exact cloneLoop_store_mono log repoID children n bag2 (c.Hash :: processed)
              (paths.TakeIndex (aggregateReachability parents)).1
              (CreateIfNotExists S v) rid h0 w hl
          have hTv : CreateIfNotExists T v = T := by
            rcases Lookup_CreateIfNotExists_self S v with ⟨w, hw⟩
            exact CreateIfNotExists_eq_self T v w (hS2le v.RepoID v.ExternalID w hw)
          rw [hstep, hstepT, hTv]
          have hrec := ih bag2 (c.Hash :: processed)
            (paths.TakeIndex (aggregateReachability parents)).1
            (CreateIfNotExists S v) T hres hS2le hfin
          rw [hrec]

/-- The per-store keys `(repositoryID, externalID)`. -/
def storeKeys (store : Store) : List (Nat × Nat) :=
  store.map (fun v => (v.RepoID, v.ExternalID))

theorem CreateIfNotExists_nodup (store : Store) (v : RepoVersion)
    (h : (storeKeys store).Nodup) : (storeKeys (CreateIfNotExists store v)).Nodup := by
  unfold CreateIfNotExists
  rcases hl : Lookup store v.RepoID v.ExternalID with _ | p
  · have hnotin : (v.RepoID, v.ExternalID) ∉ storeKeys store := by
      intro hmem
      rcases List.mem_map.mp hmem with ⟨w, hw, heq⟩
      have hfound := List.find?_eq_none.mp hl w hw
      simp only [Prod.mk.injEq] at heq
      simp [heq.1, heq.2] at hfound
    unfold storeKeys
    rw [List.map_append]
    refine List.Nodup.append h (by simp) ?_
    intro x hx hx2
    simp only [List.map_cons, List.map_nil, List.mem_singleton] at hx2
    exact hnotin (hx2 ▸ hx)
  · exact h

theorem cloneLoop_store_nodup (log : List Commit) (repoID : Nat) (children : ChildMap)
    (fuel : Nat) (bag : List Commit) (processed : List Nat) (paths : pathCoverage)
    (store : Store) (h : (storeKeys store).Nodup) :
    (storeKeys (cloneLoop log repoID children fuel bag processed paths store).store).Nodup := by
  induction fuel generalizing bag processed paths store with
  | zero =>
    cases bag with
    | nil => rw [cloneLoop_nil]; exact h
    | cons c bagRest => rw [cloneLoop_zero]; exact h
  | succ n ih =>
    cases bag with
    | nil => rw [cloneLoop_nil]; exact h
    | cons c bagRest =>
      rcases hlp : lookupParents store repoID c.ParentHashes with h2 | parents
      · rw [cloneLoop_integrity log repoID children n c bagRest processed paths store h2 hlp]
        exact h
      · rcases hpr : pushReady log (c.Hash :: processed) (childGet children c.Hash) bagRest
          with h2 | bag2
        · rw [cloneLoop_childErr log repoID children n c bagRest processed paths store
            parents h2 hlp hpr]
          exact CreateIfNotExists_nodup store _ h
        · rw [cloneLoop_step log repoID children n c bagRest processed paths store
            parents bag2 hlp hpr]
          exact ih _ _ _ _ (CreateIfNotExists_nodup store _ h)

/-- C9: when a from-scratch `Clone` run succeeds, running `Clone` again on
the resulting store changes nothing — it succeeds, leaves the store
byte-identical, and recomputes the identical trace — and the store holds
at most one record per `(repositoryID, externalID)`. -/
theorem clone_idempotent (log : List Commit) (repoID : Nat)
    (hok : (Clone log repoID []).res = none) :
    Clone log repoID (Clone log repoID []).store
      = ⟨none, (Clone log repoID []).store, (Clone log repoID []).trace⟩
    ∧ (storeKeys (Clone log repoID []).store).Nodup := by
  simp only [Clone] at hok ⊢
  by_cases hroots : (rootsOf log).isEmpty = true
  · rw [if_pos hroots] at hok
    cases hok
  · rw [if_neg hroots] at hok
    simp only [if_neg hroots]
    rcases hsb : seedBag log (rootsOf log) [] with h | bag
    · rw [hsb] at hok
      cases hok
    · rw [hsb] at hok
      simp only [hsb]
      constructor
      · refine cloneLoop_sim log repoID (buildChildren log) (cloneFuel log) bag []
          cloneInitialPaths [] _ hok ?_ ?_
        · intro rid h0 w hl
          simp [Lookup, List.find?] at hl
        · intro rid h0 w hl
          exact hl
      · refine cloneLoop_store_nodup log repoID (buildChildren log) (cloneFuel log) bag []
          cloneInitialPaths [] ?_
        simp [storeKeys]

theorem clone_idempotent_witness :
    (Clone diamondLog 1 []).res = none
    ∧ (Clone diamondLog 1 (Clone diamondLog 1 []).store
        = ⟨none, (Clone diamondLog 1 []).store, (Clone diamondLog 1 []).trace⟩
      ∧ (storeKeys (Clone diamondLog 1 []).store).Nodup) :=
  ⟨by decide, clone_idempotent diamondLog 1 (by decide)⟩

/-! ### The linear chain (C6) -/

/-- A strictly linear history of `N` commits: commit `i` (1-based) has
hash `i` and sole parent `i - 1`, except the root commit 1. The log is
in ascending order (the graph builder accepts any order). -/
def linLog (N : Nat) : List Commit :=
  (List.range N).map (fun j => ⟨j + 1, if j = 0 then [] else [j]⟩)

/-- The version the linear-chain run persists for commit `i`. -/
def linVersion (repoID i : Nat) : RepoVersion :=
  ⟨repoID, i, ⟨1, (i : Int)⟩, [(1, (i : Int))]⟩

/-- The store contents after the first `N` commits of the chain. -/
def linStore (repoID N : Nat) : Store :=
  (List.range N).map (fun j => linVersion repoID (j + 1))

/-- The processed set after the first `k` commits of the chain. -/
def linProcessed : Nat → List Nat
  | 0 => []
  | k + 1 => (k + 1) :: linProcessed k

theorem childGet_append (l l2 : ChildMap) (k : Nat) :
    childGet (l ++ l2) k
      = if k ∈ l.map Prod.fst then childGet l k else childGet l2 k := by
  induction l with
  | nil => simp [childGet]
  | cons e rest ih =>
    by_cases he : e.1 = k
    · rw [List.cons_append]
      simp only [childGet, if_pos he, List.map_cons, List.mem_cons]
      rw [if_pos (Or.inl he.symm)]
    · rw [List.cons_append]
      simp only [childGet, if_neg he, List.map_cons, List.mem_cons]
      rw [ih]
      by_cases hm : k ∈ rest.map Prod.fst
      · rw [if_pos hm, if_pos (Or.inr hm)]
      · rw [if_neg hm, if_neg (by rintro (h | h); exact he h.symm; exact hm h)]

theorem childGet_eq_nil_of_not_mem (m : ChildMap) (k : Nat)
    (h : k ∉ m.map Prod.fst) : childGet m k = [] := by
  induction m with
  | nil => rfl
  | cons e rest ih =>
    simp only [List.map_cons, List.mem_cons, not_or] at h
    have he : e.1 ≠ k := fun hc => h.1 hc.symm
    simp only [childGet, if_neg he]
    exact ih h.2

theorem childSet_notmem (m : ChildMap) (k : Nat) (l : List Nat)
    (h : k ∉ m.map Prod.fst) : childSet m k l = m ++ [(k, l)] := by
  induction m with
  | nil => rfl
  | cons e rest ih =>
    simp only [List.map_cons, List.mem_cons, not_or] at h
    have he : e.1 ≠ k := fun hc => h.1 hc.symm
    simp only [childSet, if_neg he, List.cons_append]
    rw [ih h.2]

theorem buildChildren_append_one (log : List Commit) (c : Commit) :
    buildChildren (log ++ [c])
      = c.ParentHashes.foldl
          (fun m h => childSet m h (childGet m h ++ [c.Hash])) (buildChildren log) := by
  unfold buildChildren
  rw [List.foldl_append]
  rfl

theorem keys_range_map (n k : Nat) :
    k ∈ (((List.range n).map (fun j => ((j + 1 : Nat), [j + 2]))).map Prod.fst)
      ↔ 1 ≤ k ∧ k ≤ n := by
  rw [List.map_map]
  constructor
  · intro h
    rcases List.mem_map.mp h with ⟨j, hj, hjk⟩
    have := List.mem_range.mp hj
    simp only [Function.comp] at hjk
    omega
  · intro h
    refine List.mem_map.mpr ⟨k - 1, List.mem_range.mpr (by omega), ?_⟩
    simp only [Function.comp]
    omega

theorem buildChildren_linLog (N : Nat) :
    buildChildren (linLog N)
      = (List.range (N - 1)).map (fun j => ((j + 1 : Nat), [j + 2])) := by
  induction N with
  | zero => rfl
  | succ n ih =>
    unfold linLog
    rw [List.range_succ, List.map_append]
    rw [show (List.map (fun j => (⟨j + 1, if j = 0 then [] else [j]⟩ : Commit)) [n])
      = [⟨n + 1, if n = 0 then [] else [n]⟩] from rfl]
    rw [buildChildren_append_one]
    cases n with
    | zero => exact ih
    | succ m =>
      show childSet (buildChildren (linLog (m + 1))) (m + 1)
          (childGet (buildChildren (linLog (m + 1))) (m + 1) ++ [m + 2]) = _
      rw [ih]
      have hnot : (m + 1) ∉ (((List.range (m + 1 - 1)).map
          (fun j => ((j + 1 : Nat), [j + 2]))).map Prod.fst) := by
        rw [keys_range_map]
        omega
      rw [childGet_eq_nil_of_not_mem _ _ hnot, childSet_notmem _ _ _ hnot]
      rw [show m + 1 + 1 - 1 = (m + 1 - 1) + 1 from by omega, List.range_succ, List.map_append]
      simp only [List.map_cons, List.map_nil, List.nil_append]
      congr 2

theorem childGet_linLog (N k : Nat) :
    childGet (buildChildren (linLog N)) k
      = if 1 ≤ k ∧ k + 1 ≤ N then [k + 1] else [] := by
  rw [buildChildren_linLog]
  induction N with
  | zero =>
    rw [if_neg (by omega)]
    rfl
  | succ n ih =>
    by_cases hn : n = 0
    · subst hn
      rw [if_neg (by omega)]
      rfl
    · rw [show n + 1 - 1 = (n - 1) + 1 from by omega, List.range_succ, List.map_append,
        childGet_append]
      by_cases hmem : k ∈ (((List.range (n - 1)).map
          (fun j => ((j + 1 : Nat), [j + 2]))).map Prod.fst)
      · rw [if_pos hmem, ih]
        have hk := (keys_range_map (n - 1) k).mp hmem
        have hc1 : 1 ≤ k ∧ k + 1 ≤ n := by omega
        have hc2 : 1 ≤ k ∧ k + 1 ≤ n + 1 := by omega
        rw [if_pos hc1, if_pos hc2]
      · rw [if_neg hmem]
        have hk := fun h => hmem ((keys_range_map (n - 1) k).mpr h)
        simp only [List.map_cons, List.map_nil]
        show childGet [(n - 1 + 1, [n - 1 + 2])] k = _
        by_cases hkn : n - 1 + 1 = k
        · have hc1 : 1 ≤ k ∧ k + 1 ≤ n + 1 := by omega
          simp only [childGet, if_pos hkn]
          rw [if_pos hc1]
          congr 1 <;> omega
        · have hk2 : ¬(1 ≤ k ∧ k ≤ n - 1) := hk
          have hn1 : 1 ≤ n := Nat.one_le_iff_ne_zero.mpr hn
          have hkn2 : ¬(n = k) := fun hh => hkn (by omega)
          have hc1 : ¬(1 ≤ k ∧ k + 1 ≤ n + 1) := by omega
          simp only [childGet, if_neg hkn]
          rw [if_neg hc1]

theorem find?_append_none {α : Type} (p : α → Bool) (l l2 : List α)
    (h : l.find? p = none) : (l ++ l2).find? p = l2.find? p := by
  induction l with
  | nil => rfl
  | cons a rest ih =>
    rcases hpa : p a with _ | _
    · rw [List.find?_cons_of_neg _ (by simp [hpa])] at h
      rw [List.cons_append, List.find?_cons_of_neg _ (by simp [hpa])]
      exact ih h
    · rw [List.find?_cons_of_pos _ hpa] at h
      cases h

theorem Lookup_append_none (S S2 : Store) (rid h : Nat)
    (hn : Lookup S rid h = none) : Lookup (S ++ S2) rid h = Lookup S2 rid h :=
  find?_append_none _ S S2 hn

theorem Lookup_append_some (S S2 : Store) (rid h : Nat) (w : RepoVersion)
    (hs : Lookup S rid h = some w) : Lookup (S ++ S2) rid h = some w :=
  find?_append_of_find? _ S S2 w hs

theorem CommitObject_append_none (l l2 : List Commit) (h : Nat)
    (hn : CommitObject l h = none) : CommitObject (l ++ l2) h = CommitObject l2 h :=
  find?_append_none _ l l2 hn

theorem CommitObject_append_some (l l2 : List Commit) (h : Nat) (c : Commit)
    (hs : CommitObject l h = some c) : CommitObject (l ++ l2) h = some c :=
  find?_append_of_find? _ l l2 c hs

theorem linStore_succ (repoID n : Nat) :
    linStore repoID (n + 1) = linStore repoID n ++ [linVersion repoID (n + 1)] := by
  unfold linStore
  rw [List.range_succ, List.map_append]
  rfl

theorem linLog_succ (n : Nat) :
    linLog (n + 1) = linLog n ++ [⟨n + 1, if n = 0 then [] else [n]⟩] := by
  unfold linLog
  rw [List.range_succ, List.map_append]
  rfl

theorem Lookup_linStore_none (repoID k i : Nat) (hi : k < i) :
    Lookup (linStore repoID k) repoID i = none := by
  induction k with
  | zero => rfl
  | succ n ih =>
    rw [linStore_succ, Lookup_append_none _ _ _ _ (ih (by omega))]
    show List.find? _ _ = none
    rw [List.find?_cons_of_neg _ (by
      simp only [linVersion, Bool.and_eq_true, decide_eq_true_eq, not_and]
      intro _
      omega)]
    rfl

theorem Lookup_linStore (repoID k i : Nat) (h1 : 1 ≤ i) (hk : i ≤ k) :
    Lookup (linStore repoID k) repoID i = some (linVersion repoID i) := by
  induction k with
  | zero => omega
  | succ n ih =>
    rw [linStore_succ]
    by_cases hin : i ≤ n
    · exact Lookup_append_some _ _ _ _ _ (ih hin)
    · have hie : i = n + 1 := by omega
      subst hie
      rw [Lookup_append_none _ _ _ _ (Lookup_linStore_none repoID n (n + 1) (by omega))]
      show List.find? _ _ = _
      rw [List.find?_cons_of_pos _ (by simp [linVersion])]

theorem CommitObject_linLog_none (N i : Nat) (hi : N < i) :
    CommitObject (linLog N) i = none := by
  induction N with
  | zero => rfl
  | succ n ih =>
    rw [linLog_succ, CommitObject_append_none _ _ _ (ih (by omega))]
    show List.find? _ _ = none
    rw [List.find?_cons_of_neg _ (by
      simp only [decide_eq_true_eq]
      omega)]
    rfl

theorem CommitObject_linLog (N i : Nat) (h1 : 1 ≤ i) (hN : i ≤ N) :
    CommitObject (linLog N) i
      = some ⟨i, if i = 1 then [] else [i - 1]⟩ := by
  induction N with
  | zero => omega
  | succ n ih =>
    rw [linLog_succ]
    by_cases hin : i ≤ n
    · exact CommitObject_append_some _ _ _ _ (ih hin)
    · have hie : i = n + 1 := by omega
      subst hie
      rw [CommitObject_append_none _ _ _ (CommitObject_linLog_none n (n + 1) (by omega))]
      show List.find? _ _ = _
      rw [List.find?_cons_of_pos _ (by simp)]
      congr 1
      simp only [Commit.mk.injEq, true_and]
      by_cases hn0 : n = 0
      · subst hn0
        simp
      · rw [if_neg hn0, if_neg (by omega)]
        simp only [List.cons.injEq, and_true]
        omega

theorem linProcessed_mem (k j : Nat) : j ∈ linProcessed k ↔ 1 ≤ j ∧ j ≤ k := by
  induction k with
  | zero =>
    simp only [linProcessed, List.not_mem_nil, false_iff]
    omega
  | succ n ih =>
    simp only [linProcessed, List.mem_cons, ih]
    omega

theorem linProcessed_contains (k j : Nat) :
    (linProcessed k).contains j = decide (1 ≤ j ∧ j ≤ k) := by
  by_cases h : 1 ≤ j ∧ j ≤ k
  · rw [decide_eq_true h]
    exact List.elem_eq_true_of_mem ((linProcessed_mem k j).mpr h)
  · rw [decide_eq_false h]
    by_cases hc : (linProcessed k).contains j = true
    · exact absurd ((linProcessed_mem k j).mp (List.mem_of_elem_eq_true hc)) h
    · exact Bool.not_eq_true _ ▸ hc

theorem rootsOf_append (l l2 : List Commit) :
    rootsOf (l ++ l2) = rootsOf l ++ rootsOf l2 := by
  unfold rootsOf
  rw [List.filter_append, List.map_append]

theorem rootsOf_linLog (N : Nat) (hN : 1 ≤ N) : rootsOf (linLog N) = [1] := by
  induction N with
  | zero => omega
  | succ n ih =>
    rw [linLog_succ, rootsOf_append]
    cases n with
    | zero => rfl
    | succ m =>
      rw [ih (by omega)]
      rw [show (if (m + 1 : Nat) = 0 then ([] : List Nat) else [m + 1]) = [m + 1] from
        by simp]
      rfl
theorem agg_linVersion (repoID k : Nat) (hk : 1 ≤ k) :
    aggregateReachability [linVersion repoID k] = [(1, (k : Int))] := by
  show aggInsert [] (1, (k : Int)) = [(1, (k : Int))]
  unfold aggInsert
  rw [if_pos (show ((k : Nat) : Int) > goGet [] 1 from Nat.cast_pos.mpr (by omega))]
  rfl

theorem lin_TakeIndex (k : Int) :
    pathCoverage.TakeIndex ⟨[(1, k)], 1⟩ [(1, k)]
      = (⟨[(1, k + 1)], 1⟩, ⟨1, k + 1⟩) := by
  unfold pathCoverage.TakeIndex
  simp only [List.foldl_cons, List.foldl_nil]
  rw [show goGet [(1, k)] 1 = k from rfl]
  rw [if_pos rfl, if_pos (show (1 : Int) < maxInt from by decide),
    if_neg (show ¬(1 : Int) = maxInt from by decide),
    if_neg (show ¬(1 : Int) < 1 from by decide)]
  rfl

theorem lin_stepVersion (repoID k : Nat) (hk : 1 ≤ k) :
    stepVersion repoID ⟨k + 1, [k]⟩ ⟨[(1, (k : Int))], 1⟩ [linVersion repoID k]
      = linVersion repoID (k + 1) := by
  unfold stepVersion
  rw [agg_linVersion repoID k hk, lin_TakeIndex]
  unfold linVersion
  simp only [RepoVersion.mk.injEq, RepoVersionPathCoverage.mk.injEq, true_and]
  constructor
  · push_cast
    rfl
  · show goSet [(1, (k : Int))] 1 ((k : Int) + 1) = [(1, ((k + 1 : Nat) : Int))]
    rw [show goSet [(1, (k : Int))] 1 ((k : Int) + 1) = [(1, (k : Int) + 1)] from rfl]
    push_cast
    rfl

theorem lin_create (repoID k : Nat) :
    CreateIfNotExists (linStore repoID k) (linVersion repoID (k + 1))
      = linStore repoID (k + 1) := by
  unfold CreateIfNotExists
  rw [show (linVersion repoID (k + 1)).RepoID = repoID from rfl,
    show (linVersion repoID (k + 1)).ExternalID = k + 1 from rfl,
    Lookup_linStore_none repoID k (k + 1) (by omega), linStore_succ]

theorem lin_pushReady (N k : Nat) :
    pushReady (linLog N) (linProcessed (k + 1))
        (childGet (buildChildren (linLog N)) (k + 1)) []
      = .ok (if k + 1 < N then [⟨k + 2, [k + 1]⟩] else []) := by
  rw [childGet_linLog]
  by_cases hlt : k + 1 < N
  · rw [if_pos (by omega), if_pos hlt]
    show pushReady (linLog N) (linProcessed (k + 1)) [k + 1 + 1] [] = _
    unfold pushReady
    rw [show (linProcessed (k + 1)).contains (k + 1 + 1)
        = decide (1 ≤ k + 1 + 1 ∧ k + 1 + 1 ≤ k + 1) from linProcessed_contains _ _,
      decide_eq_false (by omega)]
    simp only [Bool.false_eq_true, if_false]
    rw [CommitObject_linLog N (k + 2) (by omega) (by omega),
      if_neg (show ¬k + 2 = 1 from by omega),
      show k + 2 - 1 = k + 1 from by omega]
    have hall : (([k + 1] : List Nat).all fun ph => (linProcessed (k + 1)).contains ph)
        = true := by
      show ((linProcessed (k + 1)).contains (k + 1) && true) = true
      rw [linProcessed_contains, decide_eq_true (by omega)]
      rfl
    simp only [hall, if_true]
    rfl
  · rw [if_neg (by omega), if_neg hlt]
    rfl

theorem lin_TakeIndex_fst (k : Nat) :
    (pathCoverage.TakeIndex ⟨[(1, (k : Int))], 1⟩ [(1, (k : Int))]).1
      = ⟨[(1, ((k + 1 : Nat) : Int))], 1⟩ := by
  rw [lin_TakeIndex]
  show pathCoverage.mk [(1, (k : Int) + 1)] 1 = _
  push_cast
  rfl

theorem lin_lookupParents (repoID k : Nat) (h1 : 1 ≤ k) :
    lookupParents (linStore repoID k) repoID [k] = .ok [linVersion repoID k] := by
  simp only [lookupParents]
  rw [Lookup_linStore repoID k k h1 (le_refl k)]

theorem lin_run (N repoID : Nat) : ∀ (d k fuel : Nat), k + d = N → 1 ≤ k → d ≤ fuel →
    cloneLoop (linLog N) repoID (buildChildren (linLog N)) fuel
      (if k < N then [⟨k + 1, [k]⟩] else []) (linProcessed k)
      ⟨[(1, (k : Int))], 1⟩ (linStore repoID k)
      = ⟨none, linStore repoID N,
         (List.range d).map (fun j =>
           (linVersion repoID (k + j + 1), [linVersion repoID (k + j)]))⟩ := by
  intro d
  induction d with
  | zero =>
    intro k fuel hkd hk1 hfuel
    rw [if_neg (by omega), cloneLoop_nil, show k = N from by omega]
    rfl
  | succ d ih =>
    intro k fuel hkd hk1 hfuel
    rw [if_pos (by omega)]
    cases fuel with
    | zero => omega
    | succ f =>
      have hlp : lookupParents (linStore repoID k) repoID
          (Commit.mk (k + 1) [k]).ParentHashes = .ok [linVersion repoID k] :=
        lin_lookupParents repoID k hk1
      have hpr : pushReady (linLog N) ((k + 1 : Nat) :: linProcessed k)
          (childGet (buildChildren (linLog N)) (Commit.mk (k + 1) [k]).Hash) []
          = .ok (if k + 1 < N then [⟨k + 2, [k + 1]⟩] else []) :=
        lin_pushReady N k
      rw [cloneLoop_step (linLog N) repoID (buildChildren (linLog N)) f ⟨k + 1, [k]⟩ []
        (linProcessed k) ⟨[(1, (k : Int))], 1⟩ (linStore repoID k)
        [linVersion repoID k] (if k + 1 < N then [⟨k + 2, [k + 1]⟩] else []) hlp hpr]
      rw [agg_linVersion repoID k hk1, lin_TakeIndex_fst k,
        lin_stepVersion repoID k hk1, lin_create repoID k]
      rw [show (⟨k + 2, [k + 1]⟩ : Commit) = ⟨k + 1 + 1, [k + 1]⟩ from rfl,
        show ((k + 1 : Nat) :: linProcessed k) = linProcessed (k + 1) from rfl]
      rw [ih (k + 1) f (by omega) (by omega) (by omega)]
      have htr : (List.range (d + 1)).map (fun j =>
            (linVersion repoID (k + j + 1), [linVersion repoID (k + j)]))
          = (linVersion repoID (k + 1), [linVersion repoID k])
            :: (List.range d).map (fun j =>
              (linVersion repoID (k + 1 + j + 1), [linVersion repoID (k + 1 + j)])) := by
        rw [List.range_succ_eq_map, List.map_cons, List.map_map]
        congr 1
        congr 1
        funext j
        simp only [Function.comp_apply]
        rw [show k + Nat.succ j + 1 = k + 1 + j + 1 from by omega,
          show k + Nat.succ j = k + 1 + j from by omega]
      rw [htr]

theorem linTrace_cons (repoID N : Nat) (hN : 1 ≤ N) :
    (List.range N).map (fun j => (linVersion repoID (j + 1),
        if j = 0 then ([] : List RepoVersion) else [linVersion repoID j]))
      = (linVersion repoID 1, ([] : List RepoVersion))
        :: (List.range (N - 1)).map (fun j =>
            (linVersion repoID (1 + j + 1), [linVersion repoID (1 + j)])) := by
  obtain ⟨m, rfl⟩ : ∃ m, N = m + 1 := ⟨N - 1, by omega⟩
  rw [List.range_succ_eq_map, List.map_cons, List.map_map,
    show m + 1 - 1 = m from by omega]
  congr 1
  congr 1
  funext j
  simp only [Function.comp_apply]
  rw [if_neg (by omega), show Nat.succ j + 1 = 1 + j + 1 from by omega,
    show Nat.succ j = 1 + j from by omega]

theorem linLog_length (N : Nat) : (linLog N).length = N := by
  unfold linLog
  rw [List.length_map, List.length_range]

theorem Clone_eq_loop (log : List Commit) (repoID : Nat) (store : Store)
    (bag : List Commit)
    (hroots : (rootsOf log).isEmpty = false)
    (hseed : seedBag log (rootsOf log) [] = .ok bag) :
    Clone log repoID store
      = cloneLoop log repoID (buildChildren log) (cloneFuel log) bag []
          cloneInitialPaths store := by
  simp only [Clone]
  rw [if_neg (by rw [hroots]; simp), hseed]

/-- C6: ingesting a strictly linear history of `N ≥ 1` commits from an
empty store succeeds and assigns commit `i` (1-based, in topological
order) the coordinate (color 1, index `i`) with reachability `{1: i}` —
every commit shares one path color and the index grows by exactly 1,
starting at 1. -/
theorem clone_linear_chain (N repoID : Nat) (hN : 1 ≤ N) :
    Clone (linLog N) repoID []
      = ⟨none, linStore repoID N,
         (List.range N).map (fun j => (linVersion repoID (j + 1),
            if j = 0 then ([] : List RepoVersion) else [linVersion repoID j]))⟩
    ∧ (Clone (linLog N) repoID []).trace.map
        (fun e => (e.1.PathCoverage.PathColor, e.1.PathCoverage.PathIndex))
      = (List.range N).map (fun j => ((1 : Int), ((j + 1 : Nat) : Int))) := by
  have hmain : Clone (linLog N) repoID []
      = ⟨none, linStore repoID N,
         (List.range N).map (fun j => (linVersion repoID (j + 1),
            if j = 0 then ([] : List RepoVersion) else [linVersion repoID j]))⟩ := by
    have hseed : seedBag (linLog N) (rootsOf (linLog N)) [] = .ok [⟨1, []⟩] := by
      rw [rootsOf_linLog N hN]
      simp only [seedBag]
      rw [CommitObject_linLog N 1 (by omega) hN]
      rfl
    rw [Clone_eq_loop (linLog N) repoID [] [⟨1, []⟩]
      (by rw [rootsOf_linLog N hN]; rfl) hseed]
    have hfuel : ∃ f, cloneFuel (linLog N) = f + 1 ∧ N - 1 ≤ f := by
      refine ⟨cloneFuel (linLog N) - 1, ?_, ?_⟩
      · have h2 : 1 ≤ cloneFuel (linLog N) := by
          unfold cloneFuel
          exact Nat.one_le_iff_ne_zero.mpr (Nat.mul_ne_zero (by omega) (by omega))
        omega
      · have h2 : N + 1 ≤ cloneFuel (linLog N) := by
          unfold cloneFuel
          rw [linLog_length]
          calc N + 1 = (N + 1) * 1 := (Nat.mul_one _).symm
            _ ≤ (N + 1) * (N + 1) := Nat.mul_le_mul_left _ (by omega)
        omega
    obtain ⟨f, hf, hfge⟩ := hfuel
    rw [hf]
    have hlp0 : lookupParents ([] : Store) repoID (Commit.mk 1 []).ParentHashes
        = .ok [] := rfl
    have hpr0 : pushReady (linLog N) ((1 : Nat) :: [])
        (childGet (buildChildren (linLog N)) (Commit.mk 1 []).Hash) []
        = .ok (if 1 < N then [⟨2, [1]⟩] else []) := by
      have h0 := lin_pushReady N 0
      norm_num at h0
      exact h0
    rw [cloneLoop_step (linLog N) repoID (buildChildren (linLog N)) f ⟨1, []⟩ []
      [] cloneInitialPaths [] [] (if 1 < N then [⟨2, [1]⟩] else []) hlp0 hpr0]
    have hfst0 : (cloneInitialPaths.TakeIndex (aggregateReachability [])).1
        = (⟨[(1, ((1 : Nat) : Int))], 1⟩ : pathCoverage) := by decide
    have hsv0 : stepVersion repoID ⟨1, []⟩ cloneInitialPaths [] = linVersion repoID 1 := by
      unfold stepVersion linVersion
      simp only [RepoVersion.mk.injEq, true_and]
      constructor
      · decide
      · decide
    rw [hfst0, hsv0]
    rw [show CreateIfNotExists ([] : Store) (linVersion repoID 1)
      = linStore repoID 1 from rfl]
    have hrun := lin_run N repoID (N - 1) 1 f (by omega) (by omega) (by omega)
    rw [show ((1 : Nat) + 1) = 2 from rfl] at hrun
    rw [show linProcessed 1 = ((1 : Nat) :: ([] : List Nat)) from rfl] at hrun
    rw [hrun]
    rw [linTrace_cons repoID N hN]
  refine ⟨hmain, ?_⟩
  rw [hmain]
  show ((List.range N).map _).map _ = _
  rw [List.map_map]
  congr 1

theorem clone_linear_chain_witness :
    (1 : Nat) ≤ 3
    ∧ (Clone (linLog 3) 1 []
        = ⟨none, linStore 1 3,
           (List.range 3).map (fun j => (linVersion 1 (j + 1),
              if j = 0 then ([] : List RepoVersion) else [linVersion 1 j]))⟩
      ∧ (Clone (linLog 3) 1 []).trace.map
          (fun e => (e.1.PathCoverage.PathColor, e.1.PathCoverage.PathIndex))
        = (List.range 3).map (fun j => ((1 : Int), ((j + 1 : Nat) : Int)))) :=
  ⟨by decide, clone_linear_chain 3 1 (by decide)⟩

end Gitserver
